import Mathlib

/-!
# Verification of the sql-semantic-tokens classifier

Shallow embedding of `src/extension.ts` (the document semantic-token
provider of the sql-semantic-tokens VS Code extension) together with the
schema-load logic, and proofs about the embedded definitions.

Strings are modelled as `List Char`; a document is a list of lines.
JavaScript's `String.prototype.toLowerCase` is modelled for the ASCII
range (the only range the program's keyword set, schema names and the
claims exercise); JS whitespace (`\s`) is modelled by its ASCII members,
which are the only whitespace characters that can occur in the examples.
-/

-- ## Character helpers

/-- JS `\s` (whitespace) restricted to its ASCII members. -/
def isWsChar (c : Char) : Bool :=
  c = ' ' || c = '\t' || c = '\n' || c = '\r' || c = '\x0b' || c = '\x0c'

/-- The test `/[A-Za-z_]/` applied to a single character. -/
def isIdentChar (c : Char) : Bool :=
  ('A' ≤ c && c ≤ 'Z') || ('a' ≤ c && c ≤ 'z') || c = '_'

/-- An ASCII letter (either case). -/
def isAsciiLetter (c : Char) : Bool :=
  ('A' ≤ c && c ≤ 'Z') || ('a' ≤ c && c ≤ 'z')

/-- The ASCII upper → lower case table. -/
def upperLowerTable : List (Char × Char) :=
  [('A', 'a'), ('B', 'b'), ('C', 'c'), ('D', 'd'), ('E', 'e'), ('F', 'f'),
   ('G', 'g'), ('H', 'h'), ('I', 'i'), ('J', 'j'), ('K', 'k'), ('L', 'l'),
   ('M', 'm'), ('N', 'n'), ('O', 'o'), ('P', 'p'), ('Q', 'q'), ('R', 'r'),
   ('S', 's'), ('T', 't'), ('U', 'u'), ('V', 'v'), ('W', 'w'), ('X', 'x'),
   ('Y', 'y'), ('Z', 'z')]

/-- ASCII case folding: JS `toLowerCase` on the characters the program
uses (A–Z ↦ a–z, everything else unchanged). -/
def lowChar (c : Char) : Char :=
  ((upperLowerTable.find? (fun p => p.1 = c)).map (fun p => p.2)).getD c

/-- `toLowerCase` on a string. -/
def lowerStr (cs : List Char) : List Char := cs.map lowChar

-- ## List/string helpers

/-- JS `trim()` (both ends). -/
def trimWs (cs : List Char) : List Char :=
  ((cs.dropWhile isWsChar).reverse.dropWhile isWsChar).reverse

/-- `replace(/^"+|"+$/g, "")`: strip runs of double quotes from both ends. -/
def dropEdgeQuotes (cs : List Char) : List Char :=
  ((cs.dropWhile (· = '"')).reverse.dropWhile (· = '"')).reverse

/-- `cleanIdentifier` (extension.ts): remove all of `, ; ( )`, strip edge
quotes, trim whitespace. -/
def cleanIdentifier (cs : List Char) : List Char :=
  trimWs (dropEdgeQuotes (cs.filter
    (fun c => !(c = ',' || c = ';' || c = '(' || c = ')'))))

/-- Whether `pat` occurs at the start of `hay`. -/
def leadsWith : List Char → List Char → Bool
  | [], _ => true
  | _ :: _, [] => false
  | a :: as, b :: bs => a = b && leadsWith as bs

/-- JS `indexOf` of a substring: first index at which `pat` occurs. -/
def indexOfSub (hay pat : List Char) : Option Nat :=
  if leadsWith pat hay then some 0
  else
    match hay with
    | [] => none
    | _ :: t => (indexOfSub t pat).map (· + 1)

/-- JS `indexOf` of a single character. -/
def charIndexOf (c : Char) : List Char → Option Nat
  | [] => none
  | d :: t => if d = c then some 0 else (charIndexOf c t).map (· + 1)

/-- `line.split(/(\s+)/)` without the empty boundary pieces (which the
scanner skips): the maximal runs of whitespace / non-whitespace
characters, in order.  Concatenating the result gives back the line, so
character offsets are recovered by accumulating run lengths. -/
def splitFrags : List Char → List (List Char)
  | [] => []
  | c :: cs =>
    match splitFrags cs with
    | [] => [[c]]
    | [] :: fs => [c] :: [] :: fs
    | (d :: f) :: fs =>
      if isWsChar c = isWsChar d then (c :: d :: f) :: fs
      else [c] :: (d :: f) :: fs

-- ## Data model

/-- The two entries of the semantic-token legend. -/
inductive SemCat
  | table
  | column
deriving DecidableEq, Repr

/-- `legend.tokenTypes`. -/
def tokenTypes : List String := ["table", "column"]

def semCatName : SemCat → String
  | .table => "table"
  | .column => "column"

/-- One emitted semantic token. -/
structure Token where
  line : Nat
  startChar : Nat
  length : Nat
  type : SemCat
deriving DecidableEq, Repr

/-- `addToken`: push unless the type is missing from the legend (it never
is, both names are in `tokenTypes`). -/
def addToken (acc : List Token) (line startChar length : Nat) (ty : SemCat) :
    List Token :=
  if (semCatName ty) ∈ tokenTypes then acc ++ [⟨line, startChar, length, ty⟩]
  else acc

/-- The scanner's clause mode: `"none" | "select" | "from"`. -/
inductive ScanMode
  | none
  | select
  | fromClause
deriving DecidableEq, Repr

/-- The schema globals `KNOWN_TABLES`, `KNOWN_COLUMNS`, `TABLE_COLUMNS`
(sets/maps modelled as lists, observed through membership/lookup). -/
structure Schema where
  tables : List (List Char)
  columns : List (List Char)
  tableColumns : List (List Char × List (List Char))
deriving DecidableEq, Repr

def emptySchema : Schema := ⟨[], [], []⟩

/-- Scanner state: `mode` and `aliasMap` persist over the whole document,
`lastTableName` and `lastWasAs` are re-initialised at each line. -/
structure ScanState where
  mode : ScanMode
  aliasMap : List (List Char × List Char)
  lastTableName : Option (List Char)
  lastWasAs : Bool
deriving DecidableEq, Repr

def initState : ScanState := ⟨.none, [], Option.none, false⟩

/-- `aliasMap.get`. -/
def aliasGet (m : List (List Char × List Char)) (k : List Char) :
    Option (List Char) :=
  match m with
  | [] => Option.none
  | (k', v) :: rest => if k' = k then some v else aliasGet rest k

/-- `aliasMap.set`: a `Map.set` overwrites the binding for an existing key;
consing a fresh pair in front is observationally the same for `aliasGet`,
which returns the first match. -/
def aliasSet (m : List (List Char × List Char)) (k v : List Char) :
    List (List Char × List Char) :=
  (k, v) :: m

/-- The fixed `SQL_KEYWORDS` set. -/
def SQL_KEYWORDS : List (List Char) :=
  (["select", "from", "where", "join", "inner", "left", "right", "full",
    "on", "group", "by", "order", "limit", "offset", "as", "and", "or",
    "not", "insert", "into", "update", "delete", "values", "set",
    "with", "having", "union", "all", "distinct", "exists", "in", "like",
    "between", "case", "when", "then", "else", "end", "asc", "desc",
    "sum", "count", "avg", "min", "max"]).map String.data

-- ## Aggregate-call shortcut

/-- The aggregate names of the regex `/^(sum|count|avg|min|max)\s*\(([^)]+)\)/i`. -/
def aggNames : List (List Char) :=
  (["sum", "count", "avg", "min", "max"]).map String.data

/-- `\(([^)]+)\)`: an opening paren, at least one non-`)` character
(the captured inner expression), then `)`. -/
def matchParenBody : List Char → Option (List Char)
  | '(' :: body =>
    if body.takeWhile (fun c => c ≠ ')') = [] then Option.none
    else if (body.drop (body.takeWhile (fun c => c ≠ ')')).length).head? = some ')' then
      some (body.takeWhile (fun c => c ≠ ')'))
    else Option.none
  | _ => Option.none

/-- After the aggregate name: `\s*\(([^)]+)\)` — optional whitespace,
then the parenthesised body.  Returns the captured inner expression. -/
def matchAggAfter (rest : List Char) : Option (List Char) :=
  matchParenBody (rest.dropWhile isWsChar)

/-- `rawPart.match(/^(sum|count|avg|min|max)\s*\(([^)]+)\)/i)`, returning
the captured inner expression.  No aggregate name is a prefix of another,
so at most one alternative can apply and trying them in order matches the
regex's leftmost-alternative rule. -/
def matchAggCall (frag : List Char) : Option (List Char) :=
  match aggNames.find? (fun n => leadsWith n (lowerStr frag)) with
  | some n => matchAggAfter (frag.drop n.length)
  | Option.none => Option.none

/-- Token emission of the aggregate-call branch (extension.ts lines
116-178).  The state is left untouched by this branch. -/
def aggTokens (lineNo ci : Nat) (frag inner : List Char) : List Token :=
  let innerTrimmed := trimWs inner
  let innerOff := (indexOfSub frag innerTrimmed).getD 0
  let innerBase := ci + innerOff
  if innerTrimmed.length = 0 then []
  else
    match charIndexOf '.' innerTrimmed with
    | some dotPosInner =>
      let leftClean := cleanIdentifier (innerTrimmed.take dotPosInner)
      let rightClean := cleanIdentifier (innerTrimmed.drop (dotPosInner + 1))
      let t1 := if leftClean.any isIdentChar then
          addToken [] lineNo innerBase leftClean.length .table else []
      if rightClean.any isIdentChar then
        addToken t1 lineNo (innerBase + dotPosInner + 1) rightClean.length .column
      else t1
    | Option.none =>
      let cleanInner := cleanIdentifier innerTrimmed
      if cleanInner.any isIdentChar then
        addToken [] lineNo innerBase cleanInner.length .column
      else []

-- ## Per-fragment classification

/-- Token emission of the dotted-identifier branch (extension.ts lines
234-276), given the split of the cleaned fragment and the position of
the first `.` in the raw fragment. -/
def dottedTokens (schema : Schema) (st : ScanState) (lineNo ci : Nat)
    (leftRaw rightRaw : List Char) (dotPosInRaw : Nat) : List Token :=
  let leftLower := lowerStr leftRaw
  let rightLower := lowerStr rightRaw
  let realTable := (aliasGet st.aliasMap leftLower).getD leftLower
  let t1 := if realTable ∈ schema.tables ∨ st.mode = .fromClause ∨ st.mode = .select
    then addToken [] lineNo ci leftRaw.length .table else []
  if rightLower.any isIdentChar then
    addToken t1 lineNo (ci + dotPosInRaw + 1) rightRaw.length .column
  else t1

/-- The non-dotted identifier fallthrough (extension.ts lines 278-312). -/
def bareFragment (schema : Schema) (st : ScanState) (lineNo ci fragLen : Nat)
    (lower : List Char) : ScanState × List Token :=
  let step :=
    if st.mode = .fromClause then
      if lower ∈ schema.tables then
        (some SemCat.table, some lower, st.aliasMap)
      else
        match st.lastTableName with
        | some t =>
          if !(lower ∈ SQL_KEYWORDS : Bool) then
            (some SemCat.table, (Option.none : Option (List Char)),
             aliasSet st.aliasMap lower t)
          else (Option.none, st.lastTableName, st.aliasMap)
        | Option.none => (Option.none, st.lastTableName, st.aliasMap)
    else ((Option.none : Option SemCat), st.lastTableName, st.aliasMap)
  let tokenType :=
    match step.1 with
    | some t => some t
    | Option.none =>
      if lower ∈ schema.tables then some SemCat.table
      else if lower ∈ schema.columns then some SemCat.column
      else if st.mode = .fromClause then some SemCat.table
      else if st.mode = .select then some SemCat.column
      else Option.none
  let toks :=
    match tokenType with
    | some t => addToken [] lineNo ci fragLen t
    | Option.none => []
  ({ st with lastTableName := step.2.1, aliasMap := step.2.2 }, toks)

/-- The dotted-identifier dispatch (extension.ts lines 233-315): if the
cleaned fragment contains a dot and splits into a non-empty left and
right part, handle it as `left.right`; otherwise fall through to the
bare-identifier rules. -/
def identFragment (schema : Schema) (st : ScanState) (lineNo ci : Nat)
    (frag cleaned lower : List Char) : ScanState × List Token :=
  if '.' ∈ cleaned then
    let leftRaw := cleaned.takeWhile (fun c => c ≠ '.')
    let rightRaw := (cleaned.drop (leftRaw.length + 1)).takeWhile (fun c => c ≠ '.')
    match charIndexOf '.' frag with
    | some dotPosInRaw =>
      if leftRaw ≠ [] ∧ rightRaw ≠ [] then
        (st, dottedTokens schema st lineNo ci leftRaw rightRaw dotPosInRaw)
      else bareFragment schema st lineNo ci frag.length lower
    | Option.none => bareFragment schema st lineNo ci frag.length lower
  else bareFragment schema st lineNo ci frag.length lower

/-- Everything after the aggregate-call shortcut (extension.ts lines
181-315): cleaning, keyword handling, AS-alias handling, then the dotted
and bare identifier rules of `identFragment`. -/
def fragmentRest (schema : Schema) (st : ScanState) (lineNo ci : Nat)
    (frag : List Char) : ScanState × List Token :=
  let cleaned := cleanIdentifier frag
  if cleaned = [] then (st, [])
  else
    let lower := lowerStr cleaned
    if !cleaned.any isIdentChar then (st, [])
    else if lower = "select".data then
      ({ st with mode := .select, lastWasAs := false }, [])
    else if lower = "from".data ∨ lower = "join".data then
      ({ st with mode := .fromClause, lastWasAs := false }, [])
    else if lower = "as".data then
      ({ st with lastWasAs := true }, [])
    else if lower ∈ SQL_KEYWORDS then
      ({ st with lastWasAs := false }, [])
    else if st.lastWasAs = true ∧ st.mode = .select then
      ({ st with lastWasAs := false },
       addToken [] lineNo ci frag.length .column)
    else
      identFragment schema { st with lastWasAs := false } lineNo ci frag cleaned lower

/-- Classification of one non-whitespace fragment. -/
def processFragment (schema : Schema) (st : ScanState) (lineNo ci : Nat)
    (frag : List Char) : ScanState × List Token :=
  match matchAggCall frag with
  | some inner => (st, aggTokens lineNo ci frag inner)
  | Option.none => fragmentRest schema st lineNo ci frag

-- ## Per-line and per-document scan

/-- Left-to-right walk over the fragments of one line, accumulating the
character offset; whitespace fragments only advance the offset. -/
def processLineFrags (schema : Schema) :
    ScanState → Nat → Nat → List (List Char) → ScanState × List Token
  | st, _, _, [] => (st, [])
  | st, lineNo, ci, f :: fs =>
    if trimWs f = [] then
      processLineFrags schema st lineNo (ci + f.length) fs
    else
      let r := processFragment schema st lineNo ci f
      let rest := processLineFrags schema r.1 lineNo (ci + f.length) fs
      (rest.1, r.2 ++ rest.2)

/-- One line of the scan: strip a `--` comment suffix, skip blank lines,
re-initialise the per-line state, walk the fragments. -/
def processLine (schema : Schema) (st : ScanState) (lineNo : Nat)
    (rawLine : List Char) : ScanState × List Token :=
  let line :=
    match indexOfSub rawLine ['-', '-'] with
    | some i => rawLine.take i
    | Option.none => rawLine
  if trimWs line = [] then (st, [])
  else
    processLineFrags schema
      { st with lastTableName := Option.none, lastWasAs := false }
      lineNo 0 (splitFrags line)

def scanDocumentAux (schema : Schema) :
    ScanState → Nat → List (List Char) → ScanState × List Token
  | st, _, [] => (st, [])
  | st, n, l :: ls =>
    let r := processLine schema st n l
    let rest := scanDocumentAux schema r.1 (n + 1) ls
    (rest.1, r.2 ++ rest.2)

/-- `provideDocumentSemanticTokens` for one document, also returning the
final scanner state. -/
def scanDocumentFull (schema : Schema) (doc : List (List Char)) :
    ScanState × List Token :=
  scanDocumentAux schema initState 0 doc

/-- The emitted token list of one classification pass. -/
def scanDocument (schema : Schema) (doc : List (List Char)) : List Token :=
  (scanDocumentFull schema doc).2

/-- The fragments the scanner derives from one raw line: the comment
suffix is stripped exactly as in `processLine`, then the line is split
into runs. -/
def lineFrags (rawLine : List Char) : List (List Char) :=
  match indexOfSub rawLine ['-', '-'] with
  | some i => splitFrags (rawLine.take i)
  | Option.none => splitFrags rawLine

/-- No fragment of any line of the document matches the aggregate-call
shortcut. -/
def aggFreeDoc (doc : List (List Char)) : Prop :=
  ∀ line ∈ doc, ∀ frag ∈ lineFrags line, matchAggCall frag = Option.none

-- ## Schema loading (`ensureSchemaLoaded` / `loadSchemaFromDatabase`)

/-- `Set.add`: a JS `Set` keeps one copy of each element; appending when
absent preserves insertion order. -/
def setAdd (l : List (List Char)) (x : List Char) : List (List Char) :=
  if x ∈ l then l else l ++ [x]

/-- `Map.get` for `TABLE_COLUMNS`. -/
def tcGet (m : List (List Char × List (List Char))) (k : List Char) :
    Option (List (List Char)) :=
  match m with
  | [] => Option.none
  | (k', v) :: rest => if k' = k then some v else tcGet rest k

/-- `Map.set` for `TABLE_COLUMNS`: overwrite the binding if present,
append otherwise. -/
def tcSet (m : List (List Char × List (List Char))) (k : List Char)
    (v : List (List Char)) : List (List Char × List (List Char)) :=
  match m with
  | [] => [(k, v)]
  | (k', v') :: rest =>
    if k' = k then (k, v) :: rest else (k', v') :: tcSet rest k v

/-- The loop over `tablesRes.rows` (extension.ts lines 403-407). -/
def loadTablesRows (rows : List (List Char)) (s : Schema) : Schema :=
  rows.foldl
    (fun s row =>
      let t := lowerStr row
      { s with tables := setAdd s.tables t,
               tableColumns := tcSet s.tableColumns t [] })
    s

/-- The loop over `colsRes.rows` (extension.ts lines 418-431): add the
bare and the `table.column`-qualified name to `KNOWN_COLUMNS`, and the
column to the table's entry of `TABLE_COLUMNS` (created if absent). -/
def loadColsRows (rows : List (List Char × List Char)) (s : Schema) :
    Schema :=
  rows.foldl
    (fun s row =>
      let t := lowerStr row.1
      let c := lowerStr row.2
      let cols := setAdd (setAdd s.columns c) (t ++ '.' :: c)
      match tcGet s.tableColumns t with
      | some cs =>
        { s with columns := cols, tableColumns := tcSet s.tableColumns t (setAdd cs c) }
      | Option.none =>
        { s with columns := cols, tableColumns := tcSet s.tableColumns t (setAdd [] c) })
    s

/-- The outcomes of the database connection and of the two catalog
queries, as observed by one load attempt. -/
structure DbEnv where
  connectRes : Except Nat Unit
  tablesRes : Except Nat (List (List Char))
  colsRes : Except Nat (List (List Char × List Char))

/-- `loadSchemaFromDatabase` as a transformer of the global schema state:
connect, then clear all three containers, then run the tables query and
the columns query in order; a failure aborts at that point (the `finally`
only closes the client).  Returns the propagated outcome and the schema
state left behind. -/
def loadSchemaFromDatabase (env : DbEnv) (s : Schema) :
    Except Nat Unit × Schema :=
  match env.connectRes with
  | .error e => (.error e, s)
  | .ok _ =>
    let s := emptySchema
    match env.tablesRes with
    | .error e => (.error e, s)
    | .ok trows =>
      let s := loadTablesRows trows s
      match env.colsRes with
      | .error e => (.error e, s)
      | .ok crows => (.ok (), loadColsRows crows s)

/-- The memoized load attempt held by `schemaLoadPromise`; `result` is
the outcome of the underlying load (the `.catch` swallows an error, so
awaiting callers never see it). -/
structure LoadAttempt where
  result : Except Nat Unit

/-- The session state: `schemaLoadPromise` (the memoization slot, `null`
before the first call) and the global schema containers. -/
structure Session where
  slot : Option LoadAttempt
  schema : Schema

/-- `ensureSchemaLoaded`: on the first call run the load (with the error
caught and logged, never rethrown); afterwards the stored attempt is
returned unchanged — even when its load failed. -/
def ensureSchemaLoaded (st : Session) (env : DbEnv) : Session :=
  match st.slot with
  | some _ => st
  | Option.none =>
    let r := loadSchemaFromDatabase env st.schema
    { slot := some ⟨r.1⟩, schema := r.2 }

-- ## Token-order relation and case-insensitive token shape

/-- Emission order required by the consuming editor API: later tokens sit
on a later line, or on the same line at a startChar that is not smaller. -/
def tokLE (a b : Token) : Prop :=
  a.line < b.line ∨ (a.line = b.line ∧ a.startChar ≤ b.startChar)

/-- A token without its startChar. -/
def tokShape (t : Token) : Nat × Nat × SemCat := (t.line, t.length, t.type)

-- ## Concrete documents and schemas used by the claims

/-- Snapshot {accounts(id,name), orders(id,account_id,total_amt_usd)}. -/
def c1schema : Schema :=
  { tables := ["accounts", "orders"].map String.data
    columns := ["id", "name", "account_id", "total_amt_usd",
      "accounts.id", "accounts.name", "orders.id", "orders.account_id",
      "orders.total_amt_usd"].map String.data
    tableColumns :=
      [("accounts".data, ["id".data, "name".data]),
       ("orders".data, ["id".data, "account_id".data, "total_amt_usd".data])] }

def c1doc : List (List Char) :=
  ["SELECT a.name, SUM(o.total_amt_usd) AS total_sales FROM accounts a JOIN orders o ON a.id = o.account_id".data]

def c4schema : Schema :=
  { tables := ["accounts".data], columns := [], tableColumns := [] }

def c4doc : List (List Char) := ["from accounts where x".data]

def c6doc : List (List Char) := ["select x as a.b".data]

def c7doc : List (List Char) :=
  ["from orders o".data, "select x as o.c".data]

def c8doc : List (List Char) := ["select sum (x)".data]

def c10doc1 : List (List Char) := ["select sum(um)".data]

def c10doc2 : List (List Char) := ["select SUM(um)".data]

/-- A previous (stale) snapshot for the schema-load claims. -/
def c5prev : Schema :=
  { tables := ["olda".data]
    columns := ["oldc".data, "olda.oldc".data]
    tableColumns := [("olda".data, ["oldc".data])] }

/-- A load attempt whose connection and tables query succeed and whose
columns query fails. -/
def c5env : DbEnv :=
  { connectRes := .ok (), tablesRes := .ok ["t".data], colsRes := .error 7 }

-- ## Character-level facts about case folding

/-- `lowChar` either fixes a character or maps an ASCII letter to an
ASCII letter. -/
theorem lowChar_spec (c : Char) :
    lowChar c = c ∨ (isAsciiLetter c = true ∧ isAsciiLetter (lowChar c) = true) := by
  unfold lowChar
  cases hf : upperLowerTable.find? (fun p => p.1 = c) with
  | none => left; rfl
  | some p =>
    right
    have hm : p ∈ upperLowerTable := List.mem_of_find?_eq_some hf
    have hp : p.1 = c := by
      have := List.find?_some hf
      exact of_decide_eq_true this
    subst hp
    fin_cases hm <;> simp <;> decide

theorem letter_not_ws (x : Char) (h : isAsciiLetter x = true) :
    isWsChar x = false := by
  cases hw : isWsChar x
  · rfl
  · exfalso
    have hx : ((((x = ' ' ∨ x = '\t') ∨ x = '\n') ∨ x = '\r') ∨ x = '\x0b') ∨ x = '\x0c' := by
      simpa [isWsChar] using hw
    rcases hx with ((((rfl|rfl)|rfl)|rfl)|rfl)|rfl <;> exact absurd h (by decide)

theorem letter_isIdent (x : Char) (h : isAsciiLetter x = true) :
    isIdentChar x = true := by
  unfold isAsciiLetter at h
  unfold isIdentChar
  rcases Bool.or_eq_true_iff.mp h with h1 | h2
  · simp [h1]
  · simp [h2]

theorem isWs_lowChar (c : Char) : isWsChar (lowChar c) = isWsChar c := by
  rcases lowChar_spec c with h | ⟨h1, h2⟩
  · rw [h]
  · rw [letter_not_ws _ h1, letter_not_ws _ h2]

theorem isIdent_lowChar (c : Char) : isIdentChar (lowChar c) = isIdentChar c := by
  rcases lowChar_spec c with h | ⟨h1, h2⟩
  · rw [h]
  · rw [letter_isIdent _ h1, letter_isIdent _ h2]

theorem letter_ne (x p : Char) (h : isAsciiLetter x = true)
    (hp : isAsciiLetter p = false) : x ≠ p := by
  rintro rfl; rw [h] at hp; exact Bool.noConfusion hp

/-- For any non-letter `p`, case folding neither creates nor destroys
occurrences of `p`. -/
theorem lowChar_eq_iff (c p : Char) (hp : isAsciiLetter p = false) :
    (lowChar c = p) = (c = p) := by
  rcases lowChar_spec c with h | ⟨h1, h2⟩
  · rw [h]
  · apply propext
    constructor
    · intro he; exact absurd he (letter_ne _ _ h2 hp)
    · intro he; exact absurd he (letter_ne _ _ h1 hp)

/-- Case folding a string does not change where `/[A-Za-z_]/` matches. -/
theorem any_isIdent_lower (l : List Char) :
    (lowerStr l).any isIdentChar = l.any isIdentChar := by
  induction l with
  | nil => rfl
  | cons c cs ih =>
    simp only [lowerStr, List.map_cons, List.any_cons] at *
    rw [isIdent_lowChar, ih]

-- ## Generic facts about the helpers

theorem addToken_eq (acc : List Token) (ln s n : Nat) (ty : SemCat) :
    addToken acc ln s n ty = acc ++ [⟨ln, s, n, ty⟩] := by
  cases ty <;> rfl

theorem dot_mem_lower (l : List Char) (h : '.' ∈ l) : '.' ∈ lowerStr l :=
  List.mem_map.mpr ⟨'.', h, by decide⟩

/-- Every SQL keyword contains a letter. -/
theorem kw_any_ident : ∀ k ∈ SQL_KEYWORDS, k.any isIdentChar = true := by decide

-- ## C1

set_option maxRecDepth 10000 in
/-- C1: for the single-line document `SELECT a.name, SUM(o.total_amt_usd)
AS total_sales FROM accounts a JOIN orders o ON a.id = o.account_id`
classified against {accounts(id,name), orders(id,account_id,total_amt_usd)},
the emitted token list is exactly the list below — in particular it
includes `a`→Table and `name`→Column from `a.name`, `o`→Table and
`total_amt_usd`→Column from inside `SUM(...)`, `total_sales`→Column (the
AS-alias), `accounts`→Table, the alias `a`→Table, `orders`→Table, the
alias `o`→Table, and the dotted pairs for `a.id` and `o.account_id`. -/
theorem c1_example_token_list :
    scanDocument c1schema c1doc =
      [⟨0, 7, 1, .table⟩, ⟨0, 9, 4, .column⟩, ⟨0, 19, 1, .table⟩,
       ⟨0, 21, 13, .column⟩, ⟨0, 39, 11, .column⟩, ⟨0, 56, 8, .table⟩,
       ⟨0, 65, 1, .table⟩, ⟨0, 72, 6, .table⟩, ⟨0, 79, 1, .table⟩,
       ⟨0, 84, 1, .table⟩, ⟨0, 86, 2, .column⟩, ⟨0, 91, 1, .table⟩,
       ⟨0, 93, 10, .column⟩] := by
  decide

-- ## C3

/-- C3: the classification scan is total — it is a function defined on
every document and schema (the shallow embedding is a total function, so
no input can make it throw), and on the claim's stress inputs (empty
document, a line with an unbalanced quote, a line with unbalanced parens,
a single-character line that fails to classify) it simply emits no
token. -/
theorem c3_scan_total :
    (∀ schema doc, ∃ ts, scanDocument schema doc = ts) ∧
    (∀ schema, scanDocument schema [] = []) ∧
    (∀ schema, scanDocument schema ["\"".data] = []) ∧
    scanDocument emptySchema ["x".data] = [] ∧
    scanDocument emptySchema ["((".data] = [] := by
  refine ⟨fun schema doc => ⟨_, rfl⟩, fun schema => rfl, fun schema => rfl,
    by decide, by decide⟩

-- ## C4

/-- C4 counterexample: in `from accounts where x` (schema {accounts}),
the bare identifier `x` follows the recognized keyword `where`, yet the
scan records `x` in the alias map as an alias of `accounts` — the claim
said a keyword invalidates the pending `lastTableName`, but the code only
clears `lastWasAs` on keywords. -/
theorem c4_counterexample :
    aliasGet (scanDocumentFull c4schema c4doc).1.aliasMap "x".data =
      some "accounts".data := by decide

/-- C4 amended: processing a recognized keyword fragment leaves the
pending `lastTableName` unchanged (and emits nothing); consequently a
bare identifier that follows such a keyword on the same line in FROM mode
IS recorded as an alias of the previously seen table, as the concrete
`from accounts where x` run shows. -/
theorem c4_amended :
    (∀ schema st ln ci frag,
      matchAggCall frag = Option.none →
      lowerStr (cleanIdentifier frag) ∈ SQL_KEYWORDS →
      (processFragment schema st ln ci frag).1.lastTableName = st.lastTableName ∧
      (processFragment schema st ln ci frag).2 = []) ∧
    aliasGet (scanDocumentFull c4schema c4doc).1.aliasMap "x".data =
      some "accounts".data := by
  constructor
  · intro schema st ln ci frag hagg hkw
    have hne : cleanIdentifier frag ≠ [] := by
      intro h0
      rw [h0] at hkw
      exact absurd hkw (by decide)
    have hany : (cleanIdentifier frag).any isIdentChar = true := by
      rw [← any_isIdent_lower]
      exact kw_any_ident _ hkw
    by_cases hsel : lowerStr (cleanIdentifier frag) = "select".data
    · simp [processFragment, hagg, fragmentRest, hne, hany, hsel]
    · by_cases hfj : lowerStr (cleanIdentifier frag) = "from".data ∨
        lowerStr (cleanIdentifier frag) = "join".data
      · simp [processFragment, hagg, fragmentRest, hne, hany, hsel, hfj]
      · by_cases has : lowerStr (cleanIdentifier frag) = "as".data
        · simp [processFragment, hagg, fragmentRest, hne, hany, hsel, hfj, has]
        · simp [processFragment, hagg, fragmentRest, hne, hany, hsel, hfj, has, hkw]
  · decide

/-- C4 witness: the amended general statement applied to the keyword
fragment `where` in a concrete state. -/
theorem c4_amended_witness :
    (processFragment emptySchema initState 0 0 "where".data).1.lastTableName =
      initState.lastTableName ∧
    (processFragment emptySchema initState 0 0 "where".data).2 = [] :=
  c4_amended.1 emptySchema initState 0 0 "where".data (by decide) (by decide)

-- ## C5

/-- `loadTablesRows` never touches `KNOWN_COLUMNS`. -/
theorem loadTablesRows_columns (rows : List (List Char)) (s : Schema) :
    (loadTablesRows rows s).columns = s.columns := by
  induction rows generalizing s with
  | nil => rfl
  | cons r rs ih =>
    show (loadTablesRows rs _).columns = s.columns
    rw [ih]

/-- C5 counterexample: with a previous snapshot {olda(oldc)} and a load
whose connection and tables query succeed but whose columns query fails,
the snapshot observed afterwards is neither empty nor the previous one:
it contains the freshly loaded table `t` and no columns at all — a
partially populated snapshot. -/
theorem c5_counterexample :
    (ensureSchemaLoaded ⟨Option.none, c5prev⟩ c5env).schema ≠ emptySchema ∧
    (ensureSchemaLoaded ⟨Option.none, c5prev⟩ c5env).schema ≠ c5prev ∧
    (ensureSchemaLoaded ⟨Option.none, c5prev⟩ c5env).schema.tables = ["t".data] ∧
    (ensureSchemaLoaded ⟨Option.none, c5prev⟩ c5env).schema.columns = [] := by
  refine ⟨by decide, by decide, by decide, by decide⟩

/-- C5 amended: a schema-load failure never propagates (the model of
`ensureSchemaLoaded` returns an ordinary session, recording the caught
error in the memoized attempt), and the snapshot seen afterwards is: the
previous snapshot if the connection failed; empty if the tables query
failed (the load clears all containers first); and tables-populated with
an empty column set if the columns query failed after the tables query
succeeded — in that last case the snapshot is partially populated rather
than empty or stale. -/
theorem c5_amended :
    (∀ prev e trs crs,
      ensureSchemaLoaded ⟨Option.none, prev⟩ ⟨.error e, trs, crs⟩ =
        ⟨some ⟨.error e⟩, prev⟩) ∧
    (∀ prev e crs,
      ensureSchemaLoaded ⟨Option.none, prev⟩ ⟨.ok (), .error e, crs⟩ =
        ⟨some ⟨.error e⟩, emptySchema⟩) ∧
    (∀ prev ts e,
      ensureSchemaLoaded ⟨Option.none, prev⟩ ⟨.ok (), .ok ts, .error e⟩ =
        ⟨some ⟨.error e⟩, loadTablesRows ts emptySchema⟩ ∧
      (loadTablesRows ts emptySchema).columns = []) := by
  refine ⟨fun prev e trs crs => rfl, fun prev e crs => rfl,
    fun prev ts e => ⟨rfl, loadTablesRows_columns ts emptySchema⟩⟩

-- ## C8

/-- C8: an aggregate call split across whitespace (`SUM` then `(x)`) does
not trigger the aggregate-call shortcut: the regex needs the paren inside
the same fragment, so `matchAggCall` rejects the bare `SUM`, which is then
handled as a plain recognized keyword (clearing `lastWasAs`, emitting
nothing, for any state and schema), while `(x)` goes through the ordinary
punctuation-stripping rules — on `select sum (x)` with an empty schema
the only token is the mode-based Column over the `(x)` fragment. -/
theorem c8_split_aggregate :
    matchAggCall "SUM".data = Option.none ∧
    (∀ schema st ln ci, processFragment schema st ln ci "SUM".data =
      ({ st with lastWasAs := false }, [])) ∧
    scanDocument emptySchema c8doc = [⟨0, 11, 3, .column⟩] := by
  refine ⟨rfl, fun schema st ln ci => rfl, by decide⟩

-- ## C9

/-- C9: the schema load is single-flight: the first call on an empty slot
runs the load and stores the attempt; any call that sees a stored attempt
(including a failed one, since the slot is never inspected or reset)
returns the session unchanged; and a second call after any call is a
no-op, so the load is never re-triggered within a session. -/
theorem c9_single_flight :
    (∀ s env, (ensureSchemaLoaded ⟨Option.none, s⟩ env).slot =
        some ⟨(loadSchemaFromDatabase env s).1⟩ ∧
      (ensureSchemaLoaded ⟨Option.none, s⟩ env).schema =
        (loadSchemaFromDatabase env s).2) ∧
    (∀ a s env, ensureSchemaLoaded ⟨some a, s⟩ env = ⟨some a, s⟩) ∧
    (∀ st env env2, ensureSchemaLoaded (ensureSchemaLoaded st env) env2 =
        ensureSchemaLoaded st env) := by
  refine ⟨fun s env => ⟨rfl, rfl⟩, fun a s env => rfl, fun st env env2 => ?_⟩
  obtain ⟨slot, schema⟩ := st
  cases slot <;> rfl

-- ## Bounds for offsets produced by the scanner

theorem leadsWith_length (pat hay : List Char) (h : leadsWith pat hay = true) :
    pat.length ≤ hay.length := by
  induction pat generalizing hay with
  | nil => simp
  | cons a as ih =>
    cases hay with
    | nil => simp [leadsWith] at h
    | cons b bs =>
      simp only [leadsWith, Bool.and_eq_true] at h
      have := ih bs h.2
      simp only [List.length_cons]
      omega

theorem indexOfSub_bound (hay pat : List Char) (i : Nat)
    (h : indexOfSub hay pat = some i) : i + pat.length ≤ hay.length := by
  induction hay generalizing i with
  | nil =>
    unfold indexOfSub at h
    split at h
    · cases h
      have := leadsWith_length _ _ (by assumption)
      simp only [List.length_nil] at this ⊢
      omega
    · simp at h
  | cons c t ih =>
    unfold indexOfSub at h
    split at h
    · cases h
      have := leadsWith_length _ _ (by assumption)
      omega
    · have h' : Option.map (fun x => x + 1) (indexOfSub t pat) = some i := h
      cases hrec : indexOfSub t pat with
      | none => rw [hrec] at h'; simp at h'
      | some j =>
        rw [hrec] at h'
        simp only [Option.map_some'] at h'
        cases h'
        have := ih j hrec
        simp only [List.length_cons]
        omega

theorem charIndexOf_lt (c : Char) (l : List Char) (i : Nat)
    (h : charIndexOf c l = some i) : i < l.length := by
  induction l generalizing i with
  | nil => simp [charIndexOf] at h
  | cons d t ih =>
    unfold charIndexOf at h
    split at h
    · cases h; simp
    · cases hrec : charIndexOf c t with
      | none => rw [hrec] at h; simp at h
      | some j =>
        rw [hrec] at h
        simp only [Option.map_some'] at h
        cases h
        have := ih j hrec
        simp only [List.length_cons]
        omega

theorem takeWhile_len_le (p : Char → Bool) (l : List Char) :
    (l.takeWhile p).length ≤ l.length := by
  induction l with
  | nil => simp
  | cons a t ih =>
    rw [List.takeWhile_cons]
    split
    · simp only [List.length_cons]; omega
    · simp

theorem dropWhile_len_le (p : Char → Bool) (l : List Char) :
    (l.dropWhile p).length ≤ l.length := by
  induction l with
  | nil => simp
  | cons a t ih =>
    rw [List.dropWhile_cons]
    split
    · simp only [List.length_cons]; omega
    · simp

theorem trimWs_len_le (l : List Char) : (trimWs l).length ≤ l.length := by
  unfold trimWs
  have h1 := dropWhile_len_le isWsChar l
  have h2 := dropWhile_len_le isWsChar (l.dropWhile isWsChar).reverse
  simp only [List.length_reverse] at *
  omega

theorem matchParenBody_length (z inner : List Char)
    (h : matchParenBody z = some inner) : inner.length + 1 ≤ z.length := by
  unfold matchParenBody at h
  split at h
  · rename_i body
    split at h
    · simp at h
    · split at h
      · cases h
        have h1 : (List.takeWhile (fun c => decide (c ≠ ')')) body).length ≤ body.length :=
          takeWhile_len_le _ body
        simp only [List.length_cons]
        omega
      · simp at h
  · simp at h

theorem matchAggAfter_length (rest inner : List Char)
    (h : matchAggAfter rest = some inner) : inner.length ≤ rest.length := by
  unfold matchAggAfter at h
  have h1 := matchParenBody_length _ _ h
  have h2 : (rest.dropWhile isWsChar).length ≤ rest.length :=
    dropWhile_len_le _ rest
  omega

theorem matchAggCall_length (frag inner : List Char)
    (h : matchAggCall frag = some inner) : inner.length ≤ frag.length := by
  unfold matchAggCall at h
  split at h
  · rename_i n heq
    have h2 := matchAggAfter_length _ _ h
    have h3 : (frag.drop n.length).length ≤ frag.length := by
      simp [List.length_drop]
    omega
  · simp at h

-- ## Shapes of the per-fragment emission lists

theorem dottedTokens_eq (schema : Schema) (st : ScanState) (ln ci : Nat)
    (l r : List Char) (d : Nat) :
    dottedTokens schema st ln ci l r d =
      (if (aliasGet st.aliasMap (lowerStr l)).getD (lowerStr l) ∈ schema.tables ∨
          st.mode = .fromClause ∨ st.mode = .select
       then [⟨ln, ci, l.length, .table⟩] else []) ++
      (if (lowerStr r).any isIdentChar then [⟨ln, ci + d + 1, r.length, .column⟩] else []) := by
  unfold dottedTokens
  by_cases h1 : ((aliasGet st.aliasMap (lowerStr l)).getD (lowerStr l) ∈ schema.tables ∨
      st.mode = ScanMode.fromClause ∨ st.mode = ScanMode.select)
  · by_cases h2 : (lowerStr r).any isIdentChar
    · simp [h1, h2, addToken_eq]
    · simp [h1, h2, addToken_eq]
  · by_cases h2 : (lowerStr r).any isIdentChar
    · simp [h1, h2, addToken_eq]
    · simp [h1, h2, addToken_eq]

theorem bareFragment_toks (schema : Schema) (st : ScanState) (ln ci n : Nat)
    (lower : List Char) :
    (bareFragment schema st ln ci n lower).2 = [] ∨
    ∃ ty, (bareFragment schema st ln ci n lower).2 = [⟨ln, ci, n, ty⟩] := by
  unfold bareFragment
  dsimp only []
  split
  · rename_i t _
    right
    exact ⟨t, by simp [addToken_eq]⟩
  · left; rfl

theorem identFragment_toks (schema : Schema) (st : ScanState) (ln ci : Nat)
    (frag cleaned lower : List Char) :
    (identFragment schema st ln ci frag cleaned lower).2 = [] ∨
    (∃ ty, (identFragment schema st ln ci frag cleaned lower).2 =
      [⟨ln, ci, frag.length, ty⟩]) ∨
    (∃ l r d, charIndexOf '.' frag = some d ∧
      (identFragment schema st ln ci frag cleaned lower).2 =
        dottedTokens schema st ln ci l r d) := by
  have hbare := bareFragment_toks schema st ln ci frag.length lower
  unfold identFragment
  by_cases hdot : '.' ∈ cleaned
  · rw [if_pos hdot]
    dsimp only []
    cases hd : charIndexOf '.' frag with
    | some d =>
      dsimp only []
      by_cases hg : (cleaned.takeWhile (fun c => c ≠ '.') ≠ [] ∧
          (cleaned.drop ((cleaned.takeWhile (fun c => c ≠ '.')).length + 1)).takeWhile
            (fun c => c ≠ '.') ≠ [])
      · rw [if_pos hg]
        right; right
        exact ⟨_, _, d, rfl, rfl⟩
      · rw [if_neg hg]
        rcases hbare with h | ⟨ty, h⟩
        · left; exact h
        · right; left; exact ⟨ty, h⟩
    | none =>
      rcases hbare with h | ⟨ty, h⟩
      · left; exact h
      · right; left; exact ⟨ty, h⟩
  · rw [if_neg hdot]
    rcases hbare with h | ⟨ty, h⟩
    · left; exact h
    · right; left; exact ⟨ty, h⟩

theorem fragmentRest_toks (schema : Schema) (st : ScanState) (ln ci : Nat)
    (frag : List Char) :
    (fragmentRest schema st ln ci frag).2 = [] ∨
    (∃ ty, (fragmentRest schema st ln ci frag).2 = [⟨ln, ci, frag.length, ty⟩]) ∨
    (∃ stx l r d, charIndexOf '.' frag = some d ∧
      (fragmentRest schema st ln ci frag).2 = dottedTokens schema stx ln ci l r d) := by
  by_cases hcl : cleanIdentifier frag = []
  · left; simp [fragmentRest, hcl]
  · by_cases hany : (cleanIdentifier frag).any isIdentChar
    · by_cases hsel : lowerStr (cleanIdentifier frag) = "select".data
      · left; simp [fragmentRest, hcl, hany, hsel]
      · by_cases hfj : lowerStr (cleanIdentifier frag) = "from".data ∨
          lowerStr (cleanIdentifier frag) = "join".data
        · left; simp [fragmentRest, hcl, hany, hsel, hfj]
        · by_cases has : lowerStr (cleanIdentifier frag) = "as".data
          · left; simp [fragmentRest, hcl, hany, hsel, hfj, has]
          · by_cases hkw : lowerStr (cleanIdentifier frag) ∈ SQL_KEYWORDS
            · left; simp [fragmentRest, hcl, hany, hsel, hfj, has, hkw]
            · by_cases hAs : st.lastWasAs = true ∧ st.mode = ScanMode.select
              · right; left
                refine ⟨.column, ?_⟩
                simp [fragmentRest, hcl, hany, hsel, hfj, has, hkw, hAs, addToken_eq]
              · have heq : (fragmentRest schema st ln ci frag).2 =
                    (identFragment schema { st with lastWasAs := false } ln ci frag
                      (cleanIdentifier frag) (lowerStr (cleanIdentifier frag))).2 := by
                  simp [fragmentRest, hcl, hany, hsel, hfj, has, hkw, hAs]
                rw [heq]
                rcases identFragment_toks schema { st with lastWasAs := false } ln ci frag
                    (cleanIdentifier frag) (lowerStr (cleanIdentifier frag)) with
                  h | ⟨ty, h⟩ | ⟨l, r, d, hd, h⟩
                · left; exact h
                · right; left; exact ⟨ty, h⟩
                · right; right; exact ⟨_, l, r, d, hd, h⟩
    · have hany' : (cleanIdentifier frag).any isIdentChar = false := by
        cases h : (cleanIdentifier frag).any isIdentChar
        · rfl
        · exact absurd h hany
      left; simp [fragmentRest, hcl, hany']

theorem dottedTokens_mem (schema : Schema) (stx : ScanState) (ln ci : Nat)
    (l r : List Char) (d : Nat) :
    ∀ t ∈ dottedTokens schema stx ln ci l r d,
      t.line = ln ∧ ci ≤ t.startChar ∧ t.startChar ≤ ci + d + 1 := by
  intro t ht
  rw [dottedTokens_eq] at ht
  rcases List.mem_append.mp ht with h | h
  · split at h
    · rcases List.mem_singleton.mp h with rfl
      refine ⟨rfl, ?_, ?_⟩ <;> dsimp only <;> omega
    · simp at h
  · split at h
    · rcases List.mem_singleton.mp h with rfl
      refine ⟨rfl, ?_, ?_⟩ <;> dsimp only <;> omega
    · simp at h

theorem dottedTokens_pairwise (schema : Schema) (stx : ScanState) (ln ci : Nat)
    (l r : List Char) (d : Nat) :
    (dottedTokens schema stx ln ci l r d).Pairwise tokLE := by
  rw [dottedTokens_eq]
  by_cases h1 : ((aliasGet stx.aliasMap (lowerStr l)).getD (lowerStr l) ∈ schema.tables ∨
      stx.mode = ScanMode.fromClause ∨ stx.mode = ScanMode.select)
  · by_cases h2 : (lowerStr r).any isIdentChar
    · rw [if_pos h1, if_pos h2]
      refine List.pairwise_cons.mpr ⟨?_, ?_⟩
      · intro b hb
        rcases List.mem_singleton.mp hb with rfl
        exact Or.inr ⟨rfl, by dsimp only; omega⟩
      · simp [List.pairwise_cons]
    · rw [if_pos h1, if_neg h2]
      simp [List.pairwise_cons]
  · by_cases h2 : (lowerStr r).any isIdentChar
    · rw [if_neg h1, if_pos h2]
      simp [List.pairwise_cons]
    · rw [if_neg h1, if_neg h2]
      simp

theorem aggTokens_mem (ln ci : Nat) (frag inner : List Char)
    (hle : inner.length ≤ frag.length) :
    ∀ t ∈ aggTokens ln ci frag inner,
      t.line = ln ∧ ci ≤ t.startChar ∧ t.startChar ≤ ci + frag.length := by
  intro t ht
  have hTle : (trimWs inner).length ≤ inner.length := trimWs_len_le inner
  unfold aggTokens at ht
  dsimp only [] at ht
  by_cases h0 : (trimWs inner).length = 0
  · rw [if_pos h0] at ht; simp at ht
  · rw [if_neg h0] at ht
    cases hd : charIndexOf '.' (trimWs inner) with
    | some dot =>
      rw [hd] at ht
      dsimp only [] at ht
      have hdlt := charIndexOf_lt '.' (trimWs inner) dot hd
      cases hio : indexOfSub frag (trimWs inner) with
      | some off =>
        rw [hio] at ht
        have hob := indexOfSub_bound frag (trimWs inner) off hio
        by_cases hL : (cleanIdentifier ((trimWs inner).take dot)).any isIdentChar
        · by_cases hR : (cleanIdentifier ((trimWs inner).drop (dot + 1))).any isIdentChar
          · simp only [hL, hR, if_true, addToken_eq, Option.getD_some,
              List.nil_append, List.append_nil] at ht
            rcases List.mem_cons.mp ht with rfl | ht2
            · refine ⟨rfl, ?_, ?_⟩ <;> dsimp only <;> omega
            · rcases List.mem_singleton.mp ht2 with rfl
              refine ⟨rfl, ?_, ?_⟩ <;> dsimp only <;> omega
          · simp only [hL, hR, if_true, if_false, addToken_eq, Option.getD_some,
              List.nil_append] at ht
            rcases List.mem_singleton.mp ht with rfl
            refine ⟨rfl, ?_, ?_⟩ <;> dsimp only <;> omega
        · by_cases hR : (cleanIdentifier ((trimWs inner).drop (dot + 1))).any isIdentChar
          · simp only [hL, hR, if_false, if_true, addToken_eq, Option.getD_some,
              List.nil_append] at ht
            rcases List.mem_singleton.mp ht with rfl
            refine ⟨rfl, ?_, ?_⟩ <;> dsimp only <;> omega
          · simp only [hL, hR, if_false, Option.getD_some] at ht
            simp at ht
      | none =>
        rw [hio] at ht
        by_cases hL : (cleanIdentifier ((trimWs inner).take dot)).any isIdentChar
        · by_cases hR : (cleanIdentifier ((trimWs inner).drop (dot + 1))).any isIdentChar
          · simp only [hL, hR, if_true, addToken_eq, Option.getD_none,
              List.nil_append, List.append_nil] at ht
            rcases List.mem_cons.mp ht with rfl | ht2
            · refine ⟨rfl, ?_, ?_⟩ <;> dsimp only <;> omega
            · rcases List.mem_singleton.mp ht2 with rfl
              refine ⟨rfl, ?_, ?_⟩ <;> dsimp only <;> omega
          · simp only [hL, hR, if_true, if_false, addToken_eq, Option.getD_none,
              List.nil_append] at ht
            rcases List.mem_singleton.mp ht with rfl
            refine ⟨rfl, ?_, ?_⟩ <;> dsimp only <;> omega
        · by_cases hR : (cleanIdentifier ((trimWs inner).drop (dot + 1))).any isIdentChar
          · simp only [hL, hR, if_false, if_true, addToken_eq, Option.getD_none,
              List.nil_append] at ht
            rcases List.mem_singleton.mp ht with rfl
            refine ⟨rfl, ?_, ?_⟩ <;> dsimp only <;> omega
          · simp only [hL, hR, if_false, Option.getD_none] at ht
            simp at ht
    | none =>
      rw [hd] at ht
      dsimp only [] at ht
      by_cases hC : (cleanIdentifier (trimWs inner)).any isIdentChar
      · cases hio : indexOfSub frag (trimWs inner) with
        | some off =>
          rw [hio] at ht
          have hob := indexOfSub_bound frag (trimWs inner) off hio
          simp only [hC, if_true, addToken_eq, Option.getD_some, List.nil_append] at ht
          rcases List.mem_singleton.mp ht with rfl
          refine ⟨rfl, ?_, ?_⟩ <;> dsimp only <;> omega
        | none =>
          rw [hio] at ht
          simp only [hC, if_true, addToken_eq, Option.getD_none, List.nil_append] at ht
          rcases List.mem_singleton.mp ht with rfl
          refine ⟨rfl, ?_, ?_⟩ <;> dsimp only <;> omega
      · simp only [hC, if_false] at ht
        simp at ht

theorem aggTokens_pairwise (ln ci : Nat) (frag inner : List Char) :
    (aggTokens ln ci frag inner).Pairwise tokLE := by
  unfold aggTokens
  dsimp only []
  by_cases h0 : (trimWs inner).length = 0
  · rw [if_pos h0]; exact List.Pairwise.nil
  · rw [if_neg h0]
    cases hd : charIndexOf '.' (trimWs inner) with
    | some dot =>
      dsimp only []
      by_cases hL : (cleanIdentifier ((trimWs inner).take dot)).any isIdentChar
      · by_cases hR : (cleanIdentifier ((trimWs inner).drop (dot + 1))).any isIdentChar
        · simp only [hL, hR, if_true, addToken_eq, List.nil_append]
          refine List.pairwise_cons.mpr ⟨?_, ?_⟩
          · intro b hb
            rcases List.mem_singleton.mp hb with rfl
            exact Or.inr ⟨rfl, by dsimp only; omega⟩
          · simp [List.pairwise_cons]
        · simp only [hL, hR, if_true, if_false, addToken_eq, List.nil_append]
          simp [List.pairwise_cons]
      · by_cases hR : (cleanIdentifier ((trimWs inner).drop (dot + 1))).any isIdentChar
        · simp only [hL, hR, if_false, if_true, addToken_eq, List.nil_append]
          simp [List.pairwise_cons]
        · simp only [hL, hR, if_false]
          simp
    | none =>
      dsimp only []
      by_cases hC : (cleanIdentifier (trimWs inner)).any isIdentChar
      · simp only [hC, if_true, addToken_eq, List.nil_append]
        simp [List.pairwise_cons]
      · simp only [hC, if_false]
        simp

theorem processFragment_mem (schema : Schema) (st : ScanState) (ln ci : Nat)
    (frag : List Char) :
    ∀ t ∈ (processFragment schema st ln ci frag).2,
      t.line = ln ∧ ci ≤ t.startChar ∧ t.startChar ≤ ci + frag.length := by
  intro t ht
  unfold processFragment at ht
  cases hagg : matchAggCall frag with
  | some inner =>
    rw [hagg] at ht
    dsimp only [] at ht
    exact aggTokens_mem ln ci frag inner (matchAggCall_length frag inner hagg) t ht
  | none =>
    rw [hagg] at ht
    dsimp only [] at ht
    rcases fragmentRest_toks schema st ln ci frag with h | ⟨ty, h⟩ | ⟨stx, l, r, d, hd, h⟩
    · rw [h] at ht; simp at ht
    · rw [h] at ht
      rcases List.mem_singleton.mp ht with rfl
      refine ⟨rfl, ?_, ?_⟩ <;> dsimp only <;> omega
    · rw [h] at ht
      have hdlt := charIndexOf_lt '.' frag d hd
      have := dottedTokens_mem schema stx ln ci l r d t ht
      exact ⟨this.1, this.2.1, by omega⟩

theorem processFragment_pairwise (schema : Schema) (st : ScanState) (ln ci : Nat)
    (frag : List Char) :
    (processFragment schema st ln ci frag).2.Pairwise tokLE := by
  unfold processFragment
  cases hagg : matchAggCall frag with
  | some inner =>
    dsimp only []
    exact aggTokens_pairwise ln ci frag inner
  | none =>
    dsimp only []
    rcases fragmentRest_toks schema st ln ci frag with h | ⟨ty, h⟩ | ⟨stx, l, r, d, hd, h⟩
    · rw [h]; exact List.Pairwise.nil
    · rw [h]; simp [List.pairwise_cons]
    · rw [h]; exact dottedTokens_pairwise schema stx ln ci l r d

theorem processLineFrags_spec (schema : Schema) (ln : Nat) (frags : List (List Char)) :
    ∀ st ci,
      (processLineFrags schema st ln ci frags).2.Pairwise tokLE ∧
      ∀ t ∈ (processLineFrags schema st ln ci frags).2,
        t.line = ln ∧ ci ≤ t.startChar := by
  induction frags with
  | nil =>
    intro st ci
    exact ⟨List.Pairwise.nil, by simp [processLineFrags]⟩
  | cons f fs ih =>
    intro st ci
    unfold processLineFrags
    split
    · obtain ⟨hp, hb⟩ := ih st (ci + f.length)
      refine ⟨hp, fun t ht => ⟨(hb t ht).1, ?_⟩⟩
      have := (hb t ht).2
      omega
    · dsimp only []
      obtain ⟨hp2, hb2⟩ := ih (processFragment schema st ln ci f).1 (ci + f.length)
      constructor
      · rw [List.pairwise_append]
        refine ⟨processFragment_pairwise schema st ln ci f, hp2, ?_⟩
        intro a ha b hb
        have ba := processFragment_mem schema st ln ci f a ha
        have bb := hb2 b hb
        right
        refine ⟨by rw [ba.1, bb.1], ?_⟩
        have h1 := ba.2.2
        have h2 := bb.2
        omega
      · intro t ht
        rcases List.mem_append.mp ht with h | h
        · have := processFragment_mem schema st ln ci f t h
          exact ⟨this.1, this.2.1⟩
        · have := hb2 t h
          exact ⟨this.1, by omega⟩

theorem processLine_spec (schema : Schema) (st : ScanState) (ln : Nat)
    (rawLine : List Char) :
    (processLine schema st ln rawLine).2.Pairwise tokLE ∧
    ∀ t ∈ (processLine schema st ln rawLine).2, t.line = ln := by
  unfold processLine
  dsimp only []
  split
  · exact ⟨List.Pairwise.nil, by simp⟩
  · obtain ⟨hp, hb⟩ := processLineFrags_spec schema ln _
      { st with lastTableName := Option.none, lastWasAs := false } 0
    exact ⟨hp, fun t ht => (hb t ht).1⟩

theorem scanDocumentAux_spec (schema : Schema) (doc : List (List Char)) :
    ∀ st n,
      (scanDocumentAux schema st n doc).2.Pairwise tokLE ∧
      ∀ t ∈ (scanDocumentAux schema st n doc).2, n ≤ t.line := by
  induction doc with
  | nil =>
    intro st n
    exact ⟨List.Pairwise.nil, by simp [scanDocumentAux]⟩
  | cons l ls ih =>
    intro st n
    unfold scanDocumentAux
    dsimp only []
    obtain ⟨hp1, hl1⟩ := processLine_spec schema st n l
    obtain ⟨hp2, hl2⟩ := ih (processLine schema st n l).1 (n + 1)
    constructor
    · rw [List.pairwise_append]
      refine ⟨hp1, hp2, fun a ha b hb => ?_⟩
      left
      rw [hl1 a ha]
      have := hl2 b hb
      omega
    · intro t ht
      rcases List.mem_append.mp ht with h | h
      · rw [hl1 t h]
      · have := hl2 t h
        omega

/-- C2: for every document and schema, the emitted token sequence is
non-decreasing in (line, startChar): each token sits on a strictly later
line than the previous one, or on the same line with a startChar that is
greater than or equal to it. -/
theorem c2_token_order (schema : Schema) (doc : List (List Char)) :
    (scanDocument schema doc).Chain' tokLE :=
  ((scanDocumentAux_spec schema doc initState 0).1).chain'

theorem kw_no_dot : ∀ k ∈ SQL_KEYWORDS, '.' ∉ k := by decide

theorem takeWhile_append_dot (left right : List Char) (h : '.' ∉ left) :
    (left ++ '.' :: right).takeWhile (fun c => c ≠ '.') = left := by
  induction left with
  | nil => simp [List.takeWhile_cons]
  | cons a as ih =>
    have ha : a ≠ '.' := fun h0 => h (h0 ▸ List.mem_cons_self a as)
    have hm : '.' ∉ as := fun hm => h (List.mem_cons_of_mem _ hm)
    rw [List.cons_append, List.takeWhile_cons, if_pos (by simp [ha]), ih hm]

theorem takeWhile_no_dot (l : List Char) (h : '.' ∉ l) :
    l.takeWhile (fun c => c ≠ '.') = l := by
  induction l with
  | nil => rfl
  | cons a as ih =>
    have ha : a ≠ '.' := fun h0 => h (h0 ▸ List.mem_cons_self a as)
    have hm : '.' ∉ as := fun hm => h (List.mem_cons_of_mem _ hm)
    rw [List.takeWhile_cons, if_pos (by simp [ha]), ih hm]

theorem drop_after_dot (left right : List Char) :
    (left ++ '.' :: right).drop (left.length + 1) = right := by
  have h1 : left ++ '.' :: right = (left ++ ['.']) ++ right := by
    simp
  rw [h1]
  have h2 : left.length + 1 = (left ++ ['.']).length := by simp
  rw [h2, List.drop_left]

theorem fragmentRest_dotted (schema : Schema) (st : ScanState) (ln ci : Nat)
    (frag left right : List Char) (d : Nat)
    (hclean : cleanIdentifier frag = left ++ '.' :: right)
    (hld : '.' ∉ left) (hrd : '.' ∉ right) (hl : left ≠ []) (hr : right ≠ [])
    (hid : (left ++ '.' :: right).any isIdentChar = true)
    (hAs : ¬(st.lastWasAs = true ∧ st.mode = ScanMode.select))
    (hd : charIndexOf '.' frag = some d) :
    fragmentRest schema st ln ci frag =
      ({ st with lastWasAs := false },
       dottedTokens schema { st with lastWasAs := false } ln ci left right d) := by
  have hne : cleanIdentifier frag ≠ [] := by
    rw [hclean]; simp
  have hany : (cleanIdentifier frag).any isIdentChar = true := by
    rw [hclean]; exact hid
  have hdotmem : '.' ∈ cleanIdentifier frag := by
    rw [hclean]
    exact List.mem_append_right left (List.mem_cons_self '.' right)
  have hlowdot : '.' ∈ lowerStr (cleanIdentifier frag) :=
    dot_mem_lower _ hdotmem
  have hkw : lowerStr (cleanIdentifier frag) ∉ SQL_KEYWORDS :=
    fun hmem => kw_no_dot _ hmem hlowdot
  have hsel : ¬(lowerStr (cleanIdentifier frag) = "select".data) := by
    intro h0; rw [h0] at hlowdot; exact absurd hlowdot (by decide)
  have hfj : ¬(lowerStr (cleanIdentifier frag) = "from".data ∨
      lowerStr (cleanIdentifier frag) = "join".data) := by
    rintro (h0 | h0) <;> (rw [h0] at hlowdot; exact absurd hlowdot (by decide))
  have has : ¬(lowerStr (cleanIdentifier frag) = "as".data) := by
    intro h0; rw [h0] at hlowdot; exact absurd hlowdot (by decide)
  have h1 : (left ++ '.' :: right).takeWhile (fun c => c ≠ '.') = left :=
    takeWhile_append_dot left right hld
  have h2 : (left ++ '.' :: right).drop (left.length + 1) = right :=
    drop_after_dot left right
  have h3 : right.takeWhile (fun c => c ≠ '.') = right :=
    takeWhile_no_dot right hrd
  have hstep : fragmentRest schema st ln ci frag =
      identFragment schema { st with lastWasAs := false } ln ci frag
        (cleanIdentifier frag) (lowerStr (cleanIdentifier frag)) := by
    simp [fragmentRest, hne, hany, hsel, hfj, has, hkw, hAs]
  rw [hstep]
  unfold identFragment
  rw [if_pos hdotmem]
  dsimp only []
  rw [hclean, h1, h2, h3, hd]
  dsimp only []
  rw [if_pos ⟨hl, hr⟩]

theorem processFragment_dotted (schema : Schema) (st : ScanState) (ln ci : Nat)
    (frag left right : List Char) (d : Nat)
    (hagg : matchAggCall frag = Option.none)
    (hclean : cleanIdentifier frag = left ++ '.' :: right)
    (hld : '.' ∉ left) (hrd : '.' ∉ right) (hl : left ≠ []) (hr : right ≠ [])
    (hid : (left ++ '.' :: right).any isIdentChar = true)
    (hAs : ¬(st.lastWasAs = true ∧ st.mode = ScanMode.select))
    (hd : charIndexOf '.' frag = some d) :
    processFragment schema st ln ci frag =
      ({ st with lastWasAs := false },
       dottedTokens schema { st with lastWasAs := false } ln ci left right d) := by
  unfold processFragment
  rw [hagg]
  exact fragmentRest_dotted schema st ln ci frag left right d hclean hld hrd hl hr hid hAs hd

/-- C6 amended: for every fragment that cleans to a single-dot identifier
`left.right` (both parts non-empty and dot-free, with an identifier
character somewhere), is not consumed by the aggregate-call shortcut, and
is not consumed by the AS-alias branch (pending `AS` in SelectClause
mode): `left` resolved through the alias map (falling back to itself) is
emitted as Table if and only if the resolved name is a known table or the
mode is FromClause or SelectClause, and `right` is emitted as Column if
and only if it contains a letter or underscore. -/
theorem c6_amended (schema : Schema) (st : ScanState) (ln ci : Nat)
    (frag left right : List Char) (d : Nat)
    (hagg : matchAggCall frag = Option.none)
    (hclean : cleanIdentifier frag = left ++ '.' :: right)
    (hld : '.' ∉ left) (hrd : '.' ∉ right) (hl : left ≠ []) (hr : right ≠ [])
    (hid : (left ++ '.' :: right).any isIdentChar = true)
    (hAs : ¬(st.lastWasAs = true ∧ st.mode = ScanMode.select))
    (hd : charIndexOf '.' frag = some d) :
    ((⟨ln, ci, left.length, .table⟩ : Token) ∈ (processFragment schema st ln ci frag).2 ↔
      ((aliasGet st.aliasMap (lowerStr left)).getD (lowerStr left) ∈ schema.tables ∨
        st.mode = ScanMode.fromClause ∨ st.mode = ScanMode.select)) ∧
    ((⟨ln, ci + d + 1, right.length, .column⟩ : Token) ∈ (processFragment schema st ln ci frag).2 ↔
      (lowerStr right).any isIdentChar = true) := by
  rw [processFragment_dotted schema st ln ci frag left right d hagg hclean hld hrd hl hr hid hAs hd]
  dsimp only []
  rw [dottedTokens_eq]
  dsimp only []
  by_cases h1 : ((aliasGet st.aliasMap (lowerStr left)).getD (lowerStr left) ∈ schema.tables ∨
      st.mode = ScanMode.fromClause ∨ st.mode = ScanMode.select)
  · by_cases h2 : (lowerStr right).any isIdentChar = true
    · rw [if_pos h1, if_pos h2]
      constructor
      · simp [h1]
      · simp [h2]
    · rw [if_pos h1, if_neg h2]
      constructor
      · simp [h1]
      · simp [h2]
  · by_cases h2 : (lowerStr right).any isIdentChar = true
    · rw [if_pos h2, if_neg h1]
      constructor
      · simp [h1]
      · simp [h2]
    · rw [if_neg h1, if_neg h2]
      constructor
      · simp [h1]
      · simp [h2]

theorem bareFragment_mode (schema : Schema) (st : ScanState) (ln ci n : Nat)
    (lower : List Char) : (bareFragment schema st ln ci n lower).1.mode = st.mode := rfl

theorem identFragment_mode (schema : Schema) (st : ScanState) (ln ci : Nat)
    (frag cleaned lower : List Char) :
    (identFragment schema st ln ci frag cleaned lower).1.mode = st.mode := by
  unfold identFragment
  by_cases hdot : '.' ∈ cleaned
  · rw [if_pos hdot]
    dsimp only []
    cases hd : charIndexOf '.' frag with
    | some d =>
      dsimp only []
      by_cases hg : (cleaned.takeWhile (fun c => c ≠ '.') ≠ [] ∧
          (cleaned.drop ((cleaned.takeWhile (fun c => c ≠ '.')).length + 1)).takeWhile
            (fun c => c ≠ '.') ≠ [])
      · rw [if_pos hg]
      · rw [if_neg hg]
        exact bareFragment_mode schema st ln ci frag.length lower
    | none => exact bareFragment_mode schema st ln ci frag.length lower
  · rw [if_neg hdot]
    exact bareFragment_mode schema st ln ci frag.length lower

theorem fragmentRest_mode (schema : Schema) (st : ScanState) (ln ci : Nat)
    (frag : List Char) :
    (fragmentRest schema st ln ci frag).1.mode = st.mode ∨
    (fragmentRest schema st ln ci frag).1.mode = ScanMode.select ∨
    (fragmentRest schema st ln ci frag).1.mode = ScanMode.fromClause := by
  by_cases hcl : cleanIdentifier frag = []
  · left; simp [fragmentRest, hcl]
  · by_cases hany : (cleanIdentifier frag).any isIdentChar
    · by_cases hsel : lowerStr (cleanIdentifier frag) = "select".data
      · right; left; simp [fragmentRest, hcl, hany, hsel]
      · by_cases hfj : lowerStr (cleanIdentifier frag) = "from".data ∨
          lowerStr (cleanIdentifier frag) = "join".data
        · right; right; simp [fragmentRest, hcl, hany, hsel, hfj]
        · by_cases has : lowerStr (cleanIdentifier frag) = "as".data
          · left; simp [fragmentRest, hcl, hany, hsel, hfj, has]
          · by_cases hkw : lowerStr (cleanIdentifier frag) ∈ SQL_KEYWORDS
            · left; simp [fragmentRest, hcl, hany, hsel, hfj, has, hkw]
            · by_cases hAs : st.lastWasAs = true ∧ st.mode = ScanMode.select
              · left; simp [fragmentRest, hcl, hany, hsel, hfj, has, hkw, hAs]
              · left
                have heq : (fragmentRest schema st ln ci frag).1 =
                    (identFragment schema { st with lastWasAs := false } ln ci frag
                      (cleanIdentifier frag) (lowerStr (cleanIdentifier frag))).1 := by
                  simp [fragmentRest, hcl, hany, hsel, hfj, has, hkw, hAs]
                rw [heq, identFragment_mode]
    · have hany' : (cleanIdentifier frag).any isIdentChar = false := by
        cases h : (cleanIdentifier frag).any isIdentChar
        · rfl
        · exact absurd h hany
      left; simp [fragmentRest, hcl, hany']

theorem processFragment_mode_ne (schema : Schema) (st : ScanState) (ln ci : Nat)
    (frag : List Char) (h : st.mode ≠ ScanMode.none) :
    (processFragment schema st ln ci frag).1.mode ≠ ScanMode.none := by
  unfold processFragment
  cases hagg : matchAggCall frag with
  | some inner => exact h
  | none =>
    dsimp only []
    rcases fragmentRest_mode schema st ln ci frag with h1 | h1 | h1 <;> rw [h1]
    · exact h
    · intro h2; exact ScanMode.noConfusion h2
    · intro h2; exact ScanMode.noConfusion h2

theorem processLineFrags_mode_ne (schema : Schema) (ln : Nat)
    (frags : List (List Char)) :
    ∀ st ci, st.mode ≠ ScanMode.none →
      (processLineFrags schema st ln ci frags).1.mode ≠ ScanMode.none := by
  induction frags with
  | nil => intro st ci h; exact h
  | cons f fs ih =>
    intro st ci h
    unfold processLineFrags
    split
    · exact ih st (ci + f.length) h
    · dsimp only []
      exact ih (processFragment schema st ln ci f).1 (ci + f.length)
        (processFragment_mode_ne schema st ln ci f h)

theorem processLine_mode_ne (schema : Schema) (st : ScanState) (ln : Nat)
    (rawLine : List Char) (h : st.mode ≠ ScanMode.none) :
    (processLine schema st ln rawLine).1.mode ≠ ScanMode.none := by
  unfold processLine
  dsimp only []
  split
  · exact h
  · exact processLineFrags_mode_ne schema ln _
      { st with lastTableName := Option.none, lastWasAs := false } 0 h

/-- C6 counterexample: in `select x as a.b` (empty schema) the dotted
fragment `a.b` is consumed whole by the AS-alias branch as one Column
token of length 3; no Table token for `a` is emitted even though the mode
is SelectClause, contradicting the claimed "if and only if". -/
theorem c6_counterexample :
    scanDocument emptySchema c6doc = [⟨0, 7, 1, .column⟩, ⟨0, 12, 3, .column⟩] ∧
    (⟨0, 12, 1, .table⟩ : Token) ∉ scanDocument emptySchema c6doc := by
  constructor
  · decide
  · decide

/-- C6 witness: the amended statement applied to the fragment `a.b` at
character 12 in SelectClause mode with an empty alias map and schema. -/
theorem c6_amended_witness :
    ((⟨0, 12, 1, .table⟩ : Token) ∈
        (processFragment emptySchema ⟨ScanMode.select, [], Option.none, false⟩
          0 12 "a.b".data).2 ↔
      ((aliasGet ([] : List (List Char × List Char)) (lowerStr "a".data)).getD
          (lowerStr "a".data) ∈ emptySchema.tables ∨
        (ScanMode.select : ScanMode) = ScanMode.fromClause ∨
        (ScanMode.select : ScanMode) = ScanMode.select)) ∧
    ((⟨0, 14, 1, .column⟩ : Token) ∈
        (processFragment emptySchema ⟨ScanMode.select, [], Option.none, false⟩
          0 12 "a.b".data).2 ↔
      (lowerStr "b".data).any isIdentChar = true) :=
  c6_amended emptySchema ⟨ScanMode.select, [], Option.none, false⟩ 0 12
    "a.b".data "a".data "b".data 1 (by decide) (by decide) (by decide)
    (by decide) (by decide) (by decide) (by decide) (by decide) (by decide)

/-- C7 counterexample: after `from orders o` (empty schema, so the alias
binding never happens, but also with the state in FROM mode), the later
dotted fragment `o.c` on the line `select x as o.c` is consumed by the
AS-alias branch and `o` is NOT emitted as a Table token. -/
theorem c7_counterexample :
    (⟨1, 12, 1, .table⟩ : Token) ∉ scanDocument emptySchema c7doc ∧
    scanDocument emptySchema c7doc =
      [⟨0, 5, 6, .table⟩, ⟨0, 12, 1, .table⟩, ⟨1, 7, 1, .column⟩,
       ⟨1, 12, 3, .column⟩] := by
  constructor
  · decide
  · decide

/-- C7 amended: once the scanner has been in FROM mode the mode never
returns to None (preserved by every fragment and every line), and every
subsequent dotted fragment `o.<col>` that is not consumed by the
aggregate-call shortcut and not consumed by the AS-alias branch emits its
left part as Table regardless of the schema (the mode disjunct of the
dotted rule makes the schema lookup irrelevant). -/
theorem c7_amended :
    (∀ schema st ln ci frag, st.mode ≠ ScanMode.none →
      (processFragment schema st ln ci frag).1.mode ≠ ScanMode.none) ∧
    (∀ schema st ln rawLine, st.mode ≠ ScanMode.none →
      (processLine schema st ln rawLine).1.mode ≠ ScanMode.none) ∧
    (∀ schema st ln ci frag left right d,
      matchAggCall frag = Option.none →
      cleanIdentifier frag = left ++ '.' :: right →
      '.' ∉ left → '.' ∉ right → left ≠ [] → right ≠ [] →
      (left ++ '.' :: right).any isIdentChar = true →
      ¬(st.lastWasAs = true ∧ st.mode = ScanMode.select) →
      charIndexOf '.' frag = some d →
      st.mode ≠ ScanMode.none →
      (⟨ln, ci, left.length, .table⟩ : Token) ∈
        (processFragment schema st ln ci frag).2) := by
  refine ⟨fun schema st ln ci frag h => processFragment_mode_ne schema st ln ci frag h,
    fun schema st ln rawLine h => processLine_mode_ne schema st ln rawLine h,
    ?_⟩
  intro schema st ln ci frag left right d hagg hclean hld hrd hl hr hid hAs hd hmode
  rw [processFragment_dotted schema st ln ci frag left right d hagg hclean hld hrd hl hr hid hAs hd]
  dsimp only []
  rw [dottedTokens_eq]
  dsimp only []
  have hcond : (aliasGet st.aliasMap (lowerStr left)).getD (lowerStr left) ∈ schema.tables ∨
      st.mode = ScanMode.fromClause ∨ st.mode = ScanMode.select := by
    cases hm : st.mode with
    | none => exact absurd hm hmode
    | select => exact Or.inr (Or.inr rfl)
    | fromClause => exact Or.inr (Or.inl rfl)
  rw [if_pos hcond]
  exact List.mem_append_left _ (List.mem_singleton.mpr rfl)

/-- C7 witness: the amended statement applied to concrete states in FROM
and SELECT mode and to the dotted fragment `o.c` with `o` aliased to
`orders`. -/
theorem c7_amended_witness :
    (processFragment emptySchema ⟨ScanMode.fromClause, [], Option.none, false⟩
        0 0 "x".data).1.mode ≠ ScanMode.none ∧
    (processLine emptySchema ⟨ScanMode.fromClause, [], Option.none, false⟩
        0 "x".data).1.mode ≠ ScanMode.none ∧
    (⟨1, 12, 1, .table⟩ : Token) ∈
      (processFragment emptySchema
        ⟨ScanMode.select, [("o".data, "orders".data)], Option.none, false⟩
        1 12 "o.c".data).2 :=
  ⟨c7_amended.1 emptySchema _ 0 0 "x".data (by decide),
   c7_amended.2.1 emptySchema _ 0 "x".data (by decide),
   c7_amended.2.2 emptySchema _ 1 12 "o.c".data "o".data "c".data 1
     (by decide) (by decide) (by decide) (by decide) (by decide) (by decide)
     (by decide) (by decide) (by decide) (by decide)⟩

/-- C10 counterexample: the documents `select sum(um)` and `select SUM(um)`
are letter-case variants of each other, yet their token lists differ: the
aggregate shortcut locates the inner expression with a case-sensitive
`indexOf`, which finds the spurious earlier occurrence of `um` inside
lowercase `sum` (startChar 8) but not inside uppercase `SUM`
(startChar 11). -/
theorem c10_counterexample :
    c10doc1.map lowerStr = c10doc2.map lowerStr ∧
    scanDocument emptySchema c10doc1 = [⟨0, 8, 2, .column⟩] ∧
    scanDocument emptySchema c10doc2 = [⟨0, 11, 2, .column⟩] ∧
    scanDocument emptySchema c10doc1 ≠ scanDocument emptySchema c10doc2 := by
  refine ⟨by decide, by decide, by decide, by decide⟩

theorem lowChar_idem (c : Char) : lowChar (lowChar c) = lowChar c := by
  cases hf : upperLowerTable.find? (fun p => p.1 = c) with
  | none =>
    have h : lowChar c = c := by unfold lowChar; rw [hf]; rfl
    rw [h, h]
  | some p =>
    have hm : p ∈ upperLowerTable := List.mem_of_find?_eq_some hf
    have h : lowChar c = p.2 := by unfold lowChar; rw [hf]; rfl
    rw [h]
    fin_cases hm <;> decide

theorem lowerStr_idem (l : List Char) : lowerStr (lowerStr l) = lowerStr l := by
  induction l with
  | nil => rfl
  | cons c t ih =>
    simp only [lowerStr, List.map_cons] at *
    rw [lowChar_idem, ih]

theorem low_eq_decide (c p : Char) (hp : isAsciiLetter p = false) :
    decide (lowChar c = p) = decide (c = p) :=
  decide_eq_decide.mpr (iff_of_eq (lowChar_eq_iff c p hp))

theorem eq_low_decide (a b : Char) (ha : isAsciiLetter a = false) :
    decide (a = lowChar b) = decide (a = b) := by
  have h1 : (a = lowChar b) = (lowChar b = a) := propext eq_comm
  have h2 : (a = b) = (b = a) := propext eq_comm
  rw [decide_eq_decide.mpr (iff_of_eq h1), decide_eq_decide.mpr (iff_of_eq h2)]
  exact low_eq_decide b a ha

theorem mem_low_iff (p : Char) (hp : isAsciiLetter p = false) (l : List Char) :
    (p ∈ lowerStr l) ↔ p ∈ l := by
  simp only [lowerStr, List.mem_map]
  constructor
  · rintro ⟨c, hc, he⟩
    have : c = p := by
      have := lowChar_eq_iff c p hp
      rw [← this]
      exact he
    exact this ▸ hc
  · intro h
    refine ⟨p, h, ?_⟩
    rcases lowChar_spec p with h1 | ⟨h1, _⟩
    · exact h1
    · rw [h1] at hp; exact Bool.noConfusion hp

theorem filter_low (p : Char → Bool) (hp : ∀ c, p (lowChar c) = p c)
    (l : List Char) : (lowerStr l).filter p = lowerStr (l.filter p) := by
  induction l with
  | nil => rfl
  | cons a t ih =>
    simp only [lowerStr, List.map_cons, List.filter_cons] at *
    rw [hp a]
    split
    · simp only [List.map_cons]
      rw [ih]
    · exact ih

theorem dropWhile_low (p : Char → Bool) (hp : ∀ c, p (lowChar c) = p c)
    (l : List Char) : (lowerStr l).dropWhile p = lowerStr (l.dropWhile p) := by
  induction l with
  | nil => rfl
  | cons a t ih =>
    simp only [lowerStr, List.map_cons, List.dropWhile_cons] at *
    rw [hp a]
    split
    · exact ih
    · rfl

theorem takeWhile_low (p : Char → Bool) (hp : ∀ c, p (lowChar c) = p c)
    (l : List Char) : (lowerStr l).takeWhile p = lowerStr (l.takeWhile p) := by
  induction l with
  | nil => rfl
  | cons a t ih =>
    simp only [lowerStr, List.map_cons, List.takeWhile_cons] at *
    rw [hp a]
    split
    · simp only [List.map_cons]
      rw [ih]
    · rfl

theorem any_low (p : Char → Bool) (hp : ∀ c, p (lowChar c) = p c)
    (l : List Char) : (lowerStr l).any p = l.any p := by
  induction l with
  | nil => rfl
  | cons a t ih =>
    simp only [lowerStr, List.map_cons, List.any_cons] at *
    rw [hp a, ih]

theorem reverse_low (l : List Char) : (lowerStr l).reverse = lowerStr l.reverse := by
  simp [lowerStr, List.map_reverse]

theorem isWs_pred_low : ∀ c, isWsChar (lowChar c) = isWsChar c := isWs_lowChar

theorem quote_pred_low : ∀ c, (decide (lowChar c = '"')) = decide (c = '"') :=
  fun c => low_eq_decide c '"' (by decide)

theorem cleanFilter_pred_low :
    ∀ c, (!(lowChar c = ',' || lowChar c = ';' || lowChar c = '(' || lowChar c = ')')) =
      (!(c = ',' || c = ';' || c = '(' || c = ')')) := by
  intro c
  rw [low_eq_decide c ',' (by decide), low_eq_decide c ';' (by decide),
    low_eq_decide c '(' (by decide), low_eq_decide c ')' (by decide)]

theorem trimWs_low (l : List Char) : trimWs (lowerStr l) = lowerStr (trimWs l) := by
  unfold trimWs
  rw [dropWhile_low isWsChar isWs_pred_low l, reverse_low,
    dropWhile_low isWsChar isWs_pred_low, reverse_low]

theorem dropEdgeQuotes_low (l : List Char) :
    dropEdgeQuotes (lowerStr l) = lowerStr (dropEdgeQuotes l) := by
  unfold dropEdgeQuotes
  rw [dropWhile_low _ quote_pred_low l, reverse_low, dropWhile_low _ quote_pred_low,
    reverse_low]

theorem clean_low (l : List Char) :
    cleanIdentifier (lowerStr l) = lowerStr (cleanIdentifier l) := by
  unfold cleanIdentifier
  rw [filter_low _ cleanFilter_pred_low l, dropEdgeQuotes_low, trimWs_low]

theorem charIndexOf_low (c : Char) (hc : isAsciiLetter c = false) (l : List Char) :
    charIndexOf c (lowerStr l) = charIndexOf c l := by
  induction l with
  | nil => rfl
  | cons d t ih =>
    simp only [lowerStr, List.map_cons, charIndexOf] at *
    rw [if_congr (iff_of_eq (lowChar_eq_iff d c hc)) rfl rfl, ih]

theorem lowerStr_nil : lowerStr [] = [] := rfl

theorem lowerStr_cons (c : Char) (t : List Char) :
    lowerStr (c :: t) = lowChar c :: lowerStr t := rfl

theorem leadsWith_low (pat : List Char) (hp : ∀ a ∈ pat, isAsciiLetter a = false) :
    ∀ hay, leadsWith pat (lowerStr hay) = leadsWith pat hay := by
  induction pat with
  | nil => intro hay; rfl
  | cons a as ih =>
    intro hay
    cases hay with
    | nil => rfl
    | cons b bs =>
      rw [lowerStr_cons]
      simp only [leadsWith]
      rw [eq_low_decide a b (hp a (List.mem_cons_self a as)),
        ih (fun x hx => hp x (List.mem_cons_of_mem a hx)) bs]

theorem indexOfSub_low (pat : List Char) (hp : ∀ a ∈ pat, isAsciiLetter a = false)
    (hay : List Char) : indexOfSub (lowerStr hay) pat = indexOfSub hay pat := by
  induction hay with
  | nil =>
    unfold indexOfSub
    rw [show (lowerStr []) = [] from rfl]
  | cons c t ih =>
    unfold indexOfSub
    rw [leadsWith_low pat hp (c :: t), lowerStr_cons]
    dsimp only []
    rw [ih]

theorem rparen_pred_low : ∀ c, (decide (lowChar c ≠ ')')) = decide (c ≠ ')') := by
  intro c
  rw [decide_not, decide_not, low_eq_decide c ')' (by decide)]

theorem dot_pred_low : ∀ c, (decide (lowChar c ≠ '.')) = decide (c ≠ '.') := by
  intro c
  rw [decide_not, decide_not, low_eq_decide c '.' (by decide)]

theorem lowerStr_eq_nil (l : List Char) : (lowerStr l = []) ↔ l = [] := by
  unfold lowerStr
  exact List.map_eq_nil_iff

theorem lowerStr_length (l : List Char) : (lowerStr l).length = l.length :=
  List.length_map l lowChar

theorem drop_low (n : Nat) (l : List Char) :
    (lowerStr l).drop n = lowerStr (l.drop n) := by
  unfold lowerStr
  exact (List.map_drop lowChar l n).symm

theorem take_low (n : Nat) (l : List Char) :
    (lowerStr l).take n = lowerStr (l.take n) := by
  unfold lowerStr
  exact (List.map_take lowChar l n).symm

theorem head?_low (l : List Char) : (lowerStr l).head? = Option.map lowChar l.head? := by
  cases l <;> rfl

theorem head?_low_rparen (l : List Char) :
    ((lowerStr l).head? = some ')') = (l.head? = some ')') := by
  rw [head?_low]
  cases l.head? with
  | none => simp
  | some y =>
    simp only [Option.map_some', Option.some.injEq]
    exact lowChar_eq_iff y ')' (by decide)

theorem matchParenBody_not_lparen (y : Char) (ys : List Char) (hy : ¬(y = '(')) :
    matchParenBody (y :: ys) = Option.none := by
  unfold matchParenBody
  split
  · rename_i heq
    rw [List.cons.injEq] at heq
    exact absurd heq.1 hy
  · rfl

theorem matchParenBody_low (z : List Char) :
    matchParenBody (lowerStr z) = Option.map lowerStr (matchParenBody z) := by
  cases z with
  | nil => rfl
  | cons y ys =>
    by_cases hy : y = '('
    · subst hy
      rw [show lowerStr ('(' :: ys) = '(' :: lowerStr ys from rfl]
      show (if (lowerStr ys).takeWhile (fun c => c ≠ ')') = [] then Option.none
        else if ((lowerStr ys).drop ((lowerStr ys).takeWhile (fun c => c ≠ ')')).length).head? = some ')' then
          some ((lowerStr ys).takeWhile (fun c => c ≠ ')'))
        else Option.none) =
        Option.map lowerStr (if ys.takeWhile (fun c => c ≠ ')') = [] then Option.none
        else if (ys.drop (ys.takeWhile (fun c => c ≠ ')')).length).head? = some ')' then
          some (ys.takeWhile (fun c => c ≠ ')'))
        else Option.none)
      rw [takeWhile_low _ rparen_pred_low ys]
      by_cases hin : ys.takeWhile (fun c => c ≠ ')') = []
      · rw [if_pos (by rw [hin]; rfl), if_pos hin]
        rfl
      · rw [if_neg (fun h => hin ((lowerStr_eq_nil _).mp h)), if_neg hin]
        rw [lowerStr_length, drop_low]
        have hcond := head?_low_rparen (ys.drop (ys.takeWhile (fun c => c ≠ ')')).length)
        by_cases hh : (ys.drop (ys.takeWhile (fun c => c ≠ ')')).length).head? = some ')'
        · have hA : ((lowerStr (ys.drop (ys.takeWhile (fun c => c ≠ ')')).length)).head? = some ')') := by
            rw [hcond]; exact hh
          rw [if_pos hA, if_pos hh]
          rfl
        · have hA : ¬((lowerStr (ys.drop (ys.takeWhile (fun c => c ≠ ')')).length)).head? = some ')') := by
            rw [hcond]; exact hh
          rw [if_neg hA, if_neg hh]
          rfl
    · have hly : ¬(lowChar y = '(') := by
        rw [lowChar_eq_iff y '(' (by decide)]
        exact hy
      rw [show lowerStr (y :: ys) = lowChar y :: lowerStr ys from rfl,
        matchParenBody_not_lparen _ _ hly, matchParenBody_not_lparen _ _ hy]
      rfl

theorem matchAggAfter_low (r : List Char) :
    matchAggAfter (lowerStr r) = Option.map lowerStr (matchAggAfter r) := by
  unfold matchAggAfter
  rw [dropWhile_low isWsChar isWs_pred_low r, matchParenBody_low]

theorem matchAggCall_low (f : List Char) :
    matchAggCall (lowerStr f) = Option.map lowerStr (matchAggCall f) := by
  unfold matchAggCall
  rw [show lowerStr (lowerStr f) = lowerStr f from lowerStr_idem f]
  cases hf : aggNames.find? (fun n => leadsWith n (lowerStr f)) with
  | none => rfl
  | some n =>
    dsimp only []
    rw [drop_low, matchAggAfter_low]

theorem splitFrags_cons (c : Char) (cs : List Char) :
    splitFrags (c :: cs) =
      match splitFrags cs with
      | [] => [[c]]
      | [] :: fs => [c] :: [] :: fs
      | (d :: f) :: fs =>
        if isWsChar c = isWsChar d then (c :: d :: f) :: fs
        else [c] :: (d :: f) :: fs := rfl

theorem splitFrags_low (l : List Char) :
    splitFrags (lowerStr l) = List.map lowerStr (splitFrags l) := by
  induction l with
  | nil => rfl
  | cons c cs ih =>
    rw [lowerStr_cons, splitFrags_cons, splitFrags_cons, ih]
    cases hsf : splitFrags cs with
    | nil => rfl
    | cons f fs =>
      cases f with
      | nil => rfl
      | cons d f' =>
        show (if isWsChar (lowChar c) = isWsChar (lowChar d) then
            (lowChar c :: lowChar d :: lowerStr f') :: List.map lowerStr fs
          else [lowChar c] :: (lowChar d :: lowerStr f') :: List.map lowerStr fs) =
          List.map lowerStr (if isWsChar c = isWsChar d then (c :: d :: f') :: fs
            else [c] :: (d :: f') :: fs)
        rw [isWs_lowChar c, isWs_lowChar d]
        by_cases hc : isWsChar c = isWsChar d
        · rw [if_pos hc, if_pos hc]
          rfl
        · rw [if_neg hc, if_neg hc]
          rfl

theorem clean_lower_eq (l1 l2 : List Char) (h : lowerStr l1 = lowerStr l2) :
    lowerStr (cleanIdentifier l1) = lowerStr (cleanIdentifier l2) := by
  rw [← clean_low, h, clean_low]

theorem lower_length_eq (l1 l2 : List Char) (h : lowerStr l1 = lowerStr l2) :
    l1.length = l2.length := by
  rw [← lowerStr_length l1, ← lowerStr_length l2, h]

theorem lower_nil_iff (l1 l2 : List Char) (h : lowerStr l1 = lowerStr l2) :
    l1 = [] ↔ l2 = [] := by
  have := lower_length_eq l1 l2 h
  constructor
  · intro h0; rw [h0] at this; exact List.length_eq_zero.mp this.symm
  · intro h0; rw [h0] at this; exact List.length_eq_zero.mp this

theorem any_ident_lower_eq (l1 l2 : List Char) (h : lowerStr l1 = lowerStr l2) :
    l1.any isIdentChar = l2.any isIdentChar := by
  rw [← any_isIdent_lower l1, ← any_isIdent_lower l2]
  unfold lowerStr at *
  rw [h]

theorem charIndexOf_dot_lower_eq (l1 l2 : List Char) (h : lowerStr l1 = lowerStr l2) :
    charIndexOf '.' l1 = charIndexOf '.' l2 := by
  rw [← charIndexOf_low '.' (by decide) l1, h, charIndexOf_low '.' (by decide) l2]

theorem trim_lower_eq (l1 l2 : List Char) (h : lowerStr l1 = lowerStr l2) :
    lowerStr (trimWs l1) = lowerStr (trimWs l2) := by
  rw [← trimWs_low, h, trimWs_low]

theorem take_lower_eq (n : Nat) (l1 l2 : List Char) (h : lowerStr l1 = lowerStr l2) :
    lowerStr (l1.take n) = lowerStr (l2.take n) := by
  rw [← take_low, h, take_low]

theorem drop_lower_eq (n : Nat) (l1 l2 : List Char) (h : lowerStr l1 = lowerStr l2) :
    lowerStr (l1.drop n) = lowerStr (l2.drop n) := by
  rw [← drop_low, h, drop_low]

theorem takeWhile_dot_lower_eq (l1 l2 : List Char) (h : lowerStr l1 = lowerStr l2) :
    lowerStr (l1.takeWhile (fun c => c ≠ '.')) = lowerStr (l2.takeWhile (fun c => c ≠ '.')) := by
  rw [← takeWhile_low _ dot_pred_low, h, takeWhile_low _ dot_pred_low]

theorem aggTokens_low (ln ci : Nat) (f1 f2 i1 i2 : List Char)
    (hi : lowerStr i1 = lowerStr i2) :
    List.map tokShape (aggTokens ln ci f1 i1) =
      List.map tokShape (aggTokens ln ci f2 i2) := by
  have htrim : lowerStr (trimWs i1) = lowerStr (trimWs i2) := trim_lower_eq i1 i2 hi
  have htlen : (trimWs i1).length = (trimWs i2).length := lower_length_eq _ _ htrim
  have hdot : charIndexOf '.' (trimWs i1) = charIndexOf '.' (trimWs i2) :=
    charIndexOf_dot_lower_eq _ _ htrim
  unfold aggTokens
  dsimp only []
  by_cases h0 : (trimWs i1).length = 0
  · have h02 : (trimWs i2).length = 0 := by omega
    rw [if_pos h0, if_pos h02]
  · have h02 : ¬((trimWs i2).length = 0) := by omega
    rw [if_neg h0, if_neg h02]
    cases hd : charIndexOf '.' (trimWs i1) with
    | some dot =>
      have hd2 : charIndexOf '.' (trimWs i2) = some dot := by rw [← hdot]; exact hd
      rw [hd2]
      dsimp only []
      have hcl : lowerStr (cleanIdentifier ((trimWs i1).take dot)) =
          lowerStr (cleanIdentifier ((trimWs i2).take dot)) :=
        clean_lower_eq _ _ (take_lower_eq dot _ _ htrim)
      have hcr : lowerStr (cleanIdentifier ((trimWs i1).drop (dot + 1))) =
          lowerStr (cleanIdentifier ((trimWs i2).drop (dot + 1))) :=
        clean_lower_eq _ _ (drop_lower_eq (dot + 1) _ _ htrim)
      have hanyL := any_ident_lower_eq _ _ hcl
      have hanyR := any_ident_lower_eq _ _ hcr
      have hlenL := lower_length_eq _ _ hcl
      have hlenR := lower_length_eq _ _ hcr
      by_cases hL : (cleanIdentifier ((trimWs i1).take dot)).any isIdentChar
      · have hL2 : (cleanIdentifier ((trimWs i2).take dot)).any isIdentChar = true := by
          rw [← hanyL]; exact hL
        rw [if_pos hL, if_pos hL2]
        by_cases hR : (cleanIdentifier ((trimWs i1).drop (dot + 1))).any isIdentChar
        · have hR2 : (cleanIdentifier ((trimWs i2).drop (dot + 1))).any isIdentChar = true := by
            rw [← hanyR]; exact hR
          rw [if_pos hR, if_pos hR2]
          simp only [addToken_eq, List.nil_append, List.map_append, List.map_cons,
            List.map_nil, tokShape, hlenL, hlenR]
        · have hR2 : ¬((cleanIdentifier ((trimWs i2).drop (dot + 1))).any isIdentChar = true) := by
            rw [← hanyR]; exact hR
          rw [if_neg hR, if_neg hR2]
          simp only [addToken_eq, List.nil_append, List.map_cons, List.map_nil,
            tokShape, hlenL]
      · have hL2 : ¬((cleanIdentifier ((trimWs i2).take dot)).any isIdentChar = true) := by
          rw [← hanyL]; exact hL
        rw [if_neg hL, if_neg hL2]
        by_cases hR : (cleanIdentifier ((trimWs i1).drop (dot + 1))).any isIdentChar
        · have hR2 : (cleanIdentifier ((trimWs i2).drop (dot + 1))).any isIdentChar = true := by
            rw [← hanyR]; exact hR
          rw [if_pos hR, if_pos hR2]
          simp only [addToken_eq, List.nil_append, List.map_cons, List.map_nil,
            tokShape, hlenR]
        · have hR2 : ¬((cleanIdentifier ((trimWs i2).drop (dot + 1))).any isIdentChar = true) := by
            rw [← hanyR]; exact hR
          rw [if_neg hR, if_neg hR2]
    | none =>
      have hd2 : charIndexOf '.' (trimWs i2) = none := by rw [← hdot]; exact hd
      rw [hd2]
      dsimp only []
      have hcl : lowerStr (cleanIdentifier (trimWs i1)) =
          lowerStr (cleanIdentifier (trimWs i2)) := clean_lower_eq _ _ htrim
      have hany := any_ident_lower_eq _ _ hcl
      have hlen := lower_length_eq _ _ hcl
      by_cases hC : (cleanIdentifier (trimWs i1)).any isIdentChar
      · have hC2 : (cleanIdentifier (trimWs i2)).any isIdentChar = true := by
          rw [← hany]; exact hC
        rw [if_pos hC, if_pos hC2]
        simp only [addToken_eq, List.nil_append, List.map_cons, List.map_nil,
          tokShape, hlen]
      · have hC2 : ¬((cleanIdentifier (trimWs i2)).any isIdentChar = true) := by
          rw [← hany]; exact hC
        rw [if_neg hC, if_neg hC2]

theorem dottedTokens_low (schema : Schema) (st : ScanState) (ln ci : Nat)
    (l1 r1 l2 r2 : List Char) (d : Nat)
    (hll : lowerStr l1 = lowerStr l2) (hrr : lowerStr r1 = lowerStr r2) :
    dottedTokens schema st ln ci l1 r1 d = dottedTokens schema st ln ci l2 r2 d := by
  have h1 := lower_length_eq _ _ hll
  have h2 := lower_length_eq _ _ hrr
  rw [dottedTokens_eq, dottedTokens_eq, hll, hrr, h1, h2]

theorem identFragment_low (schema : Schema) (st : ScanState) (ln ci : Nat)
    (f1 f2 c1 c2 lower : List Char)
    (hf : lowerStr f1 = lowerStr f2) (hc : lowerStr c1 = lowerStr c2) :
    identFragment schema st ln ci f1 c1 lower =
      identFragment schema st ln ci f2 c2 lower := by
  have hflen : f1.length = f2.length := lower_length_eq _ _ hf
  have hdmem : ('.' ∈ c1) ↔ ('.' ∈ c2) := by
    rw [← mem_low_iff '.' (by decide) c1, hc, mem_low_iff '.' (by decide) c2]
  have htw : lowerStr (c1.takeWhile (fun c => c ≠ '.')) =
      lowerStr (c2.takeWhile (fun c => c ≠ '.')) := takeWhile_dot_lower_eq _ _ hc
  have htwlen := lower_length_eq _ _ htw
  have htwnil := lower_nil_iff _ _ htw
  have hdr : lowerStr (c1.drop ((c1.takeWhile (fun c => c ≠ '.')).length + 1)) =
      lowerStr (c2.drop ((c2.takeWhile (fun c => c ≠ '.')).length + 1)) := by
    rw [htwlen]
    exact drop_lower_eq _ _ _ hc
  have hrw : lowerStr ((c1.drop ((c1.takeWhile (fun c => c ≠ '.')).length + 1)).takeWhile (fun c => c ≠ '.')) =
      lowerStr ((c2.drop ((c2.takeWhile (fun c => c ≠ '.')).length + 1)).takeWhile (fun c => c ≠ '.')) :=
    takeWhile_dot_lower_eq _ _ hdr
  have hrwnil := lower_nil_iff _ _ hrw
  have hcio : charIndexOf '.' f1 = charIndexOf '.' f2 := charIndexOf_dot_lower_eq _ _ hf
  unfold identFragment
  by_cases hdot : '.' ∈ c1
  · rw [if_pos hdot, if_pos (hdmem.mp hdot)]
    dsimp only []
    cases hd : charIndexOf '.' f1 with
    | some d =>
      have hd2 : charIndexOf '.' f2 = some d := by rw [← hcio]; exact hd
      rw [hd2]
      dsimp only []
      by_cases hg : c1.takeWhile (fun c => c ≠ '.') ≠ [] ∧
          (c1.drop ((c1.takeWhile (fun c => c ≠ '.')).length + 1)).takeWhile (fun c => c ≠ '.') ≠ []
      · have hg2 : c2.takeWhile (fun c => c ≠ '.') ≠ [] ∧
            (c2.drop ((c2.takeWhile (fun c => c ≠ '.')).length + 1)).takeWhile (fun c => c ≠ '.') ≠ [] :=
          ⟨fun h => hg.1 (htwnil.mpr h), fun h => hg.2 (hrwnil.mpr h)⟩
        rw [if_pos hg, if_pos hg2]
        exact congrArg (Prod.mk st) (dottedTokens_low schema st ln ci _ _ _ _ d htw hrw)
      · have hg2 : ¬(c2.takeWhile (fun c => c ≠ '.') ≠ [] ∧
            (c2.drop ((c2.takeWhile (fun c => c ≠ '.')).length + 1)).takeWhile (fun c => c ≠ '.') ≠ []) := by
          intro h2
          exact hg ⟨fun h => h2.1 (htwnil.mp h), fun h => h2.2 (hrwnil.mp h)⟩
        rw [if_neg hg, if_neg hg2, hflen]
    | none =>
      have hd2 : charIndexOf '.' f2 = none := by rw [← hcio]; exact hd
      rw [hd2]
      dsimp only []
      rw [hflen]
  · rw [if_neg hdot, if_neg (fun h => hdot (hdmem.mpr h)), hflen]

theorem fragmentRest_low (schema : Schema) (st : ScanState) (ln ci : Nat)
    (f1 f2 : List Char) (h : lowerStr f1 = lowerStr f2) :
    fragmentRest schema st ln ci f1 = fragmentRest schema st ln ci f2 := by
  have hc : lowerStr (cleanIdentifier f1) = lowerStr (cleanIdentifier f2) :=
    clean_lower_eq _ _ h
  have hnil := lower_nil_iff _ _ hc
  have hany := any_ident_lower_eq _ _ hc
  have hflen : f1.length = f2.length := lower_length_eq _ _ h
  by_cases hcl : cleanIdentifier f1 = []
  · have hcl2 : cleanIdentifier f2 = [] := hnil.mp hcl
    simp [fragmentRest, hcl, hcl2]
  · have hcl2 : ¬(cleanIdentifier f2 = []) := fun h2 => hcl (hnil.mpr h2)
    by_cases hanyt : (cleanIdentifier f1).any isIdentChar
    · have hanyt2 : (cleanIdentifier f2).any isIdentChar = true := by
        rw [← hany]; exact hanyt
      by_cases hsel : lowerStr (cleanIdentifier f1) = "select".data
      · have hsel2 : lowerStr (cleanIdentifier f2) = "select".data := by
          rw [← hc]; exact hsel
        simp [fragmentRest, hcl, hcl2, hanyt, hanyt2, hsel, hsel2]
      · have hsel2 : ¬(lowerStr (cleanIdentifier f2) = "select".data) := by
          rw [← hc]; exact hsel
        by_cases hfj : lowerStr (cleanIdentifier f1) = "from".data ∨
            lowerStr (cleanIdentifier f1) = "join".data
        · have hfj2 : lowerStr (cleanIdentifier f2) = "from".data ∨
              lowerStr (cleanIdentifier f2) = "join".data := by
            rw [← hc]; exact hfj
          simp [fragmentRest, hcl, hcl2, hanyt, hanyt2, hsel, hsel2, hfj, hfj2]
        · have hfj2 : ¬(lowerStr (cleanIdentifier f2) = "from".data ∨
              lowerStr (cleanIdentifier f2) = "join".data) := by
            rw [← hc]; exact hfj
          by_cases has : lowerStr (cleanIdentifier f1) = "as".data
          · have has2 : lowerStr (cleanIdentifier f2) = "as".data := by
              rw [← hc]; exact has
            simp [fragmentRest, hcl, hcl2, hanyt, hanyt2, hsel, hsel2, hfj, hfj2, has, has2]
          · have has2 : ¬(lowerStr (cleanIdentifier f2) = "as".data) := by
              rw [← hc]; exact has
            by_cases hkw : lowerStr (cleanIdentifier f1) ∈ SQL_KEYWORDS
            · have hkw2 : lowerStr (cleanIdentifier f2) ∈ SQL_KEYWORDS := by
                rw [← hc]; exact hkw
              simp [fragmentRest, hcl, hcl2, hanyt, hanyt2, hsel, hsel2, hfj, hfj2,
                has, has2, hkw, hkw2]
            · have hkw2 : ¬(lowerStr (cleanIdentifier f2) ∈ SQL_KEYWORDS) := by
                rw [← hc]; exact hkw
              by_cases hAs : st.lastWasAs = true ∧ st.mode = ScanMode.select
              · have e1 : fragmentRest schema st ln ci f1 =
                    ({ st with lastWasAs := false }, addToken [] ln ci f1.length .column) := by
                  simp [fragmentRest, hcl, hanyt, hsel, hfj, has, hkw, hAs]
                have e2 : fragmentRest schema st ln ci f2 =
                    ({ st with lastWasAs := false }, addToken [] ln ci f2.length .column) := by
                  simp [fragmentRest, hcl2, hanyt2, hsel2, hfj2, has2, hkw2, hAs]
                rw [e1, e2, hflen]
              · have e1 : fragmentRest schema st ln ci f1 =
                    identFragment schema { st with lastWasAs := false } ln ci f1
                      (cleanIdentifier f1) (lowerStr (cleanIdentifier f1)) := by
                  simp [fragmentRest, hcl, hanyt, hsel, hfj, has, hkw, hAs]
                have e2 : fragmentRest schema st ln ci f2 =
                    identFragment schema { st with lastWasAs := false } ln ci f2
                      (cleanIdentifier f2) (lowerStr (cleanIdentifier f2)) := by
                  simp [fragmentRest, hcl2, hanyt2, hsel2, hfj2, has2, hkw2, hAs]
                rw [e1, e2, hc]
                exact identFragment_low schema { st with lastWasAs := false } ln ci
                  f1 f2 (cleanIdentifier f1) (cleanIdentifier f2)
                  (lowerStr (cleanIdentifier f2)) h hc
    · have hanyt2 : ¬((cleanIdentifier f2).any isIdentChar = true) := by
        rw [← hany]; exact hanyt
      have h1 : (cleanIdentifier f1).any isIdentChar = false := by
        cases hx : (cleanIdentifier f1).any isIdentChar
        · rfl
        · exact absurd hx hanyt
      have h2 : (cleanIdentifier f2).any isIdentChar = false := by
        cases hx : (cleanIdentifier f2).any isIdentChar
        · rfl
        · exact absurd hx hanyt2
      simp [fragmentRest, hcl, hcl2, h1, h2]

theorem processFragment_low (schema : Schema) (st : ScanState) (ln ci : Nat)
    (f1 f2 : List Char) (h : lowerStr f1 = lowerStr f2) :
    (processFragment schema st ln ci f1).1 = (processFragment schema st ln ci f2).1 ∧
    List.map tokShape (processFragment schema st ln ci f1).2 =
      List.map tokShape (processFragment schema st ln ci f2).2 := by
  have hm : Option.map lowerStr (matchAggCall f1) = Option.map lowerStr (matchAggCall f2) := by
    rw [← matchAggCall_low, h, matchAggCall_low]
  unfold processFragment
  cases h1 : matchAggCall f1 with
  | some i1 =>
    cases h2 : matchAggCall f2 with
    | some i2 =>
      rw [h1, h2] at hm
      simp only [Option.map_some', Option.some.injEq] at hm
      dsimp only []
      exact ⟨rfl, aggTokens_low ln ci f1 f2 i1 i2 hm⟩
    | none =>
      rw [h1, h2] at hm
      simp at hm
  | none =>
    cases h2 : matchAggCall f2 with
    | some i2 =>
      rw [h1, h2] at hm
      simp at hm
    | none =>
      dsimp only []
      rw [fragmentRest_low schema st ln ci f1 f2 h]
      exact ⟨rfl, rfl⟩

theorem trim_nil_iff (l1 l2 : List Char) (h : lowerStr l1 = lowerStr l2) :
    trimWs l1 = [] ↔ trimWs l2 = [] :=
  lower_nil_iff _ _ (trim_lower_eq _ _ h)

theorem processLineFrags_low (schema : Schema) (ln : Nat) :
    ∀ (fr1 fr2 : List (List Char)) (st : ScanState) (ci : Nat),
      fr1.map lowerStr = fr2.map lowerStr →
      (processLineFrags schema st ln ci fr1).1 = (processLineFrags schema st ln ci fr2).1 ∧
      List.map tokShape (processLineFrags schema st ln ci fr1).2 =
        List.map tokShape (processLineFrags schema st ln ci fr2).2 := by
  intro fr1
  induction fr1 with
  | nil =>
    intro fr2 st ci h
    cases fr2 with
    | nil => exact ⟨rfl, rfl⟩
    | cons f fs => simp at h
  | cons f1 fs1 ih =>
    intro fr2 st ci h
    cases fr2 with
    | nil => simp at h
    | cons f2 fs2 =>
      simp only [List.map_cons, List.cons.injEq] at h
      obtain ⟨hf, hfs⟩ := h
      have hflen : f1.length = f2.length := lower_length_eq _ _ hf
      have htr := trim_nil_iff f1 f2 hf
      unfold processLineFrags
      by_cases hws : trimWs f1 = []
      · rw [if_pos hws, if_pos (htr.mp hws)]
        rw [hflen]
        exact ih fs2 st (ci + f2.length) hfs
      · rw [if_neg hws, if_neg (fun hh => hws (htr.mpr hh))]
        dsimp only []
        obtain ⟨hst, htk⟩ := processFragment_low schema st ln ci f1 f2 hf
        have ihx := ih fs2 (processFragment schema st ln ci f2).1 (ci + f2.length) hfs
        constructor
        · rw [hst, hflen]
          exact ihx.1
        · rw [List.map_append, List.map_append, htk, hst, hflen, ihx.2]

theorem processLine_low (schema : Schema) (st : ScanState) (ln : Nat)
    (l1 l2 : List Char) (h : lowerStr l1 = lowerStr l2) :
    (processLine schema st ln l1).1 = (processLine schema st ln l2).1 ∧
    List.map tokShape (processLine schema st ln l1).2 =
      List.map tokShape (processLine schema st ln l2).2 := by
  have hcio : indexOfSub l1 ['-', '-'] = indexOfSub l2 ['-', '-'] := by
    rw [← indexOfSub_low ['-', '-'] (by decide) l1, h,
      indexOfSub_low ['-', '-'] (by decide) l2]
  unfold processLine
  cases hio : indexOfSub l1 ['-', '-'] with
  | some i =>
    have hio2 : indexOfSub l2 ['-', '-'] = some i := by rw [← hcio]; exact hio
    rw [hio2]
    dsimp only []
    have hline : lowerStr (l1.take i) = lowerStr (l2.take i) := take_lower_eq i _ _ h
    have htr := trim_nil_iff _ _ hline
    by_cases hb : trimWs (l1.take i) = []
    · rw [if_pos hb, if_pos (htr.mp hb)]
      exact ⟨rfl, rfl⟩
    · rw [if_neg hb, if_neg (fun hh => hb (htr.mpr hh))]
      have hsf : (splitFrags (l1.take i)).map lowerStr = (splitFrags (l2.take i)).map lowerStr := by
        rw [← splitFrags_low, hline, splitFrags_low]
      exact processLineFrags_low schema ln _ _ _ 0 hsf
  | none =>
    have hio2 : indexOfSub l2 ['-', '-'] = none := by rw [← hcio]; exact hio
    rw [hio2]
    dsimp only []
    have htr := trim_nil_iff _ _ h
    by_cases hb : trimWs l1 = []
    · rw [if_pos hb, if_pos (htr.mp hb)]
      exact ⟨rfl, rfl⟩
    · rw [if_neg hb, if_neg (fun hh => hb (htr.mpr hh))]
      have hsf : (splitFrags l1).map lowerStr = (splitFrags l2).map lowerStr := by
        rw [← splitFrags_low, h, splitFrags_low]
      exact processLineFrags_low schema ln _ _ _ 0 hsf

theorem scanDocumentAux_low (schema : Schema) :
    ∀ (d1 d2 : List (List Char)) (st : ScanState) (n : Nat),
      d1.map lowerStr = d2.map lowerStr →
      (scanDocumentAux schema st n d1).1 = (scanDocumentAux schema st n d2).1 ∧
      List.map tokShape (scanDocumentAux schema st n d1).2 =
        List.map tokShape (scanDocumentAux schema st n d2).2 := by
  intro d1
  induction d1 with
  | nil =>
    intro d2 st n h
    cases d2 with
    | nil => exact ⟨rfl, rfl⟩
    | cons l ls => simp at h
  | cons l1 ls1 ih =>
    intro d2 st n h
    cases d2 with
    | nil => simp at h
    | cons l2 ls2 =>
      simp only [List.map_cons, List.cons.injEq] at h
      obtain ⟨hl, hls⟩ := h
      unfold scanDocumentAux
      dsimp only []
      obtain ⟨hst, htk⟩ := processLine_low schema st n l1 l2 hl
      have ihx := ih ls2 (processLine schema st n l2).1 (n + 1) hls
      constructor
      · rw [hst]
        exact ihx.1
      · rw [List.map_append, List.map_append, htk, hst, ihx.2]


theorem matchAggCall_none_lower (f1 f2 : List Char) (h : lowerStr f1 = lowerStr f2)
    (hagg : matchAggCall f1 = Option.none) : matchAggCall f2 = Option.none := by
  have hm : Option.map lowerStr (matchAggCall f1) = Option.map lowerStr (matchAggCall f2) := by
    rw [← matchAggCall_low, h, matchAggCall_low]
  rw [hagg] at hm
  cases h2 : matchAggCall f2 with
  | none => rfl
  | some i => rw [h2] at hm; simp at hm

theorem processFragment_low_noagg (schema : Schema) (st : ScanState) (ln ci : Nat)
    (f1 f2 : List Char) (h : lowerStr f1 = lowerStr f2)
    (hagg : matchAggCall f1 = Option.none) :
    processFragment schema st ln ci f1 = processFragment schema st ln ci f2 := by
  have hagg2 := matchAggCall_none_lower f1 f2 h hagg
  unfold processFragment
  rw [hagg, hagg2]
  exact fragmentRest_low schema st ln ci f1 f2 h

theorem processLineFrags_low_noagg (schema : Schema) (ln : Nat) :
    ∀ (fr1 fr2 : List (List Char)) (st : ScanState) (ci : Nat),
      fr1.map lowerStr = fr2.map lowerStr →
      (∀ f ∈ fr1, matchAggCall f = Option.none) →
      processLineFrags schema st ln ci fr1 = processLineFrags schema st ln ci fr2 := by
  intro fr1
  induction fr1 with
  | nil =>
    intro fr2 st ci h hfree
    cases fr2 with
    | nil => rfl
    | cons f fs => simp at h
  | cons f1 fs1 ih =>
    intro fr2 st ci h hfree
    cases fr2 with
    | nil => simp at h
    | cons f2 fs2 =>
      simp only [List.map_cons, List.cons.injEq] at h
      obtain ⟨hf, hfs⟩ := h
      have hflen : f1.length = f2.length := lower_length_eq _ _ hf
      have htr := trim_nil_iff f1 f2 hf
      have hfree1 : matchAggCall f1 = Option.none :=
        hfree f1 (List.mem_cons_self f1 fs1)
      have hfrees : ∀ f ∈ fs1, matchAggCall f = Option.none :=
        fun f hm => hfree f (List.mem_cons_of_mem f1 hm)
      unfold processLineFrags
      by_cases hws : trimWs f1 = []
      · rw [if_pos hws, if_pos (htr.mp hws), hflen]
        exact ih fs2 st (ci + f2.length) hfs hfrees
      · rw [if_neg hws, if_neg (fun hh => hws (htr.mpr hh))]
        dsimp only []
        rw [processFragment_low_noagg schema st ln ci f1 f2 hf hfree1, hflen,
          ih fs2 (processFragment schema st ln ci f2).1 (ci + f2.length) hfs hfrees]

theorem processLine_low_noagg (schema : Schema) (st : ScanState) (ln : Nat)
    (l1 l2 : List Char) (h : lowerStr l1 = lowerStr l2)
    (hfree : ∀ frag ∈ lineFrags l1, matchAggCall frag = Option.none) :
    processLine schema st ln l1 = processLine schema st ln l2 := by
  have hcio : indexOfSub l1 ['-', '-'] = indexOfSub l2 ['-', '-'] := by
    rw [← indexOfSub_low ['-', '-'] (by decide) l1, h,
      indexOfSub_low ['-', '-'] (by decide) l2]
  unfold processLine
  cases hio : indexOfSub l1 ['-', '-'] with
  | some i =>
    have hio2 : indexOfSub l2 ['-', '-'] = some i := by rw [← hcio]; exact hio
    rw [hio2]
    dsimp only []
    have hline : lowerStr (l1.take i) = lowerStr (l2.take i) := take_lower_eq i _ _ h
    have htr := trim_nil_iff _ _ hline
    have hfr : ∀ f ∈ splitFrags (l1.take i), matchAggCall f = Option.none := by
      intro f hfm
      apply hfree
      unfold lineFrags
      rw [hio]
      exact hfm
    by_cases hb : trimWs (l1.take i) = []
    · rw [if_pos hb, if_pos (htr.mp hb)]
    · rw [if_neg hb, if_neg (fun hh => hb (htr.mpr hh))]
      have hsf : (splitFrags (l1.take i)).map lowerStr = (splitFrags (l2.take i)).map lowerStr := by
        rw [← splitFrags_low, hline, splitFrags_low]
      exact processLineFrags_low_noagg schema ln _ _ _ 0 hsf hfr
  | none =>
    have hio2 : indexOfSub l2 ['-', '-'] = none := by rw [← hcio]; exact hio
    rw [hio2]
    dsimp only []
    have htr := trim_nil_iff _ _ h
    have hfr : ∀ f ∈ splitFrags l1, matchAggCall f = Option.none := by
      intro f hfm
      apply hfree
      unfold lineFrags
      rw [hio]
      exact hfm
    by_cases hb : trimWs l1 = []
    · rw [if_pos hb, if_pos (htr.mp hb)]
    · rw [if_neg hb, if_neg (fun hh => hb (htr.mpr hh))]
      have hsf : (splitFrags l1).map lowerStr = (splitFrags l2).map lowerStr := by
        rw [← splitFrags_low, h, splitFrags_low]
      exact processLineFrags_low_noagg schema ln _ _ _ 0 hsf hfr

theorem scanDocumentAux_low_noagg (schema : Schema) :
    ∀ (d1 d2 : List (List Char)) (st : ScanState) (n : Nat),
      d1.map lowerStr = d2.map lowerStr →
      aggFreeDoc d1 →
      scanDocumentAux schema st n d1 = scanDocumentAux schema st n d2 := by
  intro d1
  induction d1 with
  | nil =>
    intro d2 st n h hfree
    cases d2 with
    | nil => rfl
    | cons l ls => simp at h
  | cons l1 ls1 ih =>
    intro d2 st n h hfree
    cases d2 with
    | nil => simp at h
    | cons l2 ls2 =>
      simp only [List.map_cons, List.cons.injEq] at h
      obtain ⟨hl, hls⟩ := h
      have hfree1 : ∀ frag ∈ lineFrags l1, matchAggCall frag = Option.none :=
        hfree l1 (List.mem_cons_self l1 ls1)
      have hfrees : aggFreeDoc ls1 :=
        fun line hm => hfree line (List.mem_cons_of_mem l1 hm)
      unfold scanDocumentAux
      dsimp only []
      rw [processLine_low_noagg schema st n l1 l2 hl hfree1,
        ih ls2 (processLine schema st n l2).1 (n + 1) hls hfrees]

/-- C10 amended: classification is invariant under letter-case changes of
the document in the number of tokens and each token's line, length, and
category; startChars can differ only through the aggregate-call shortcut:
a fragment that is not consumed by the shortcut classifies identically
under case changes — same successor state and same tokens, startChars
included — and a document in which the shortcut never fires yields a
fully identical token list.  (The shortcut's startChars come from the
case-sensitive `rawPart.indexOf(innerTrimmed)` and can shift — see the
counterexample.) -/
theorem c10_amended :
    (∀ (schema : Schema) (d1 d2 : List (List Char)),
      d1.map lowerStr = d2.map lowerStr →
      List.map tokShape (scanDocument schema d1) =
        List.map tokShape (scanDocument schema d2)) ∧
    (∀ (schema : Schema) (st : ScanState) (ln ci : Nat) (f1 f2 : List Char),
      lowerStr f1 = lowerStr f2 →
      matchAggCall f1 = Option.none →
      processFragment schema st ln ci f1 = processFragment schema st ln ci f2) ∧
    (∀ (schema : Schema) (d1 d2 : List (List Char)),
      d1.map lowerStr = d2.map lowerStr →
      aggFreeDoc d1 →
      scanDocument schema d1 = scanDocument schema d2) := by
  refine ⟨fun schema d1 d2 h => (scanDocumentAux_low schema d1 d2 initState 0 h).2,
    fun schema st ln ci f1 f2 h hagg =>
      processFragment_low_noagg schema st ln ci f1 f2 h hagg,
    fun schema d1 d2 h hfree => ?_⟩
  unfold scanDocument scanDocumentFull
  rw [scanDocumentAux_low_noagg schema d1 d2 initState 0 h hfree]

/-- C10 witness: the amended statement applied to the case-variant
documents `select sum(um)` / `select SUM(um)` (shape invariance), to the
case-variant non-aggregate fragment `A.b` / `a.B` (full equality), and to
the aggregate-free case-variant documents `SELECT a.name` /
`select A.NAME` (full token-list equality). -/
theorem c10_amended_witness :
    List.map tokShape (scanDocument emptySchema c10doc1) =
      List.map tokShape (scanDocument emptySchema c10doc2) ∧
    processFragment emptySchema initState 0 0 "A.b".data =
      processFragment emptySchema initState 0 0 "a.B".data ∧
    scanDocument emptySchema ["SELECT a.name".data] =
      scanDocument emptySchema ["select A.NAME".data] :=
  ⟨c10_amended.1 emptySchema c10doc1 c10doc2 (by decide),
   c10_amended.2.1 emptySchema initState 0 0 "A.b".data "a.B".data
     (by decide) (by decide),
   c10_amended.2.2 emptySchema ["SELECT a.name".data] ["select A.NAME".data]
     (by decide) (by unfold aggFreeDoc; decide)⟩
